import Mathlib

/-!
Verification development for the document-enrichment pipeline
(text_cleaner.py, receive_json.py, enrich_from_json.py, image_generation.py).

The Python functions are shallowly embedded as executable Lean functions on
`List Char` / `String`.  Each `re.sub` call of the source is embedded as a
single-pass scanner that implements exactly the leftmost, non-overlapping
match-and-replace semantics of the corresponding regular expression (the
greedy/lazy behaviour of each pattern is deterministic, which makes the
scanner form possible).  Character classes of Python's `re` module are
modelled on their ASCII fragment (`\w`, `\d`) resp. on the Unicode
whitespace set (`\s`, `str.strip`).
-/

set_option maxRecDepth 10000

namespace AIEx

/-- Unicode replacement character, `REPLACEMENT_CHAR` of text_cleaner.py. -/
def repChar : Char := '\uFFFD'

/-- Em dash, the replacement text used by the mojibake heuristics. -/
def emDash : Char := '\u2014'

/-- Euro sign. -/
def euroChar : Char := '\u20AC'

/-- Whitespace as Python sees it: the set accepted by `str.isspace`, `str.strip()`
and by the regex class `\s` on `str` patterns, given by code point: space, tab,
LF, CR, VT, FF, the file/group/record/unit separators 1C-1F, NEL 85, NBSP A0,
OGHAM 1680, the EN-QUAD..HAIR-SPACE block 2000-200A, LS 2028, PS 2029,
NNBSP 202F, MMSP 205F and IDEOGRAPHIC SPACE 3000. -/
def pyWs (c : Char) : Bool :=
  c.toNat = 32 || c.toNat = 9 || c.toNat = 10 || c.toNat = 13 || c.toNat = 11 || c.toNat = 12 ||
  (28 ≤ c.toNat && c.toNat ≤ 31) || c.toNat = 133 || c.toNat = 160 || c.toNat = 5760 ||
  (8192 ≤ c.toNat && c.toNat ≤ 8202) || c.toNat = 8232 || c.toNat = 8233 ||
  c.toNat = 8239 || c.toNat = 8287 || c.toNat = 12288

/-- Word characters of the regex class `\w` (ASCII fragment: digits, letters,
underscore). -/
def isWordChar (c : Char) : Bool :=
  (48 ≤ c.toNat && c.toNat ≤ 57) || (65 ≤ c.toNat && c.toNat ≤ 90) ||
  (97 ≤ c.toNat && c.toNat ≤ 122) || c.toNat = 95

/-- Digit characters of the regex class `\d` (ASCII fragment). -/
def isDigitChar (c : Char) : Bool := 48 ≤ c.toNat && c.toNat ≤ 57

/-! ### Stage 1 of `normalize_for_llm`: `re.sub(r"<br\s*/?>", "\n", text, flags=re.IGNORECASE)`

A five-state scanner.  States: nothing buffered / seen `<` / seen `<b` /
seen `<br` plus a whitespace run / additionally seen `/`.  On a failed
attempt the buffered characters are emitted verbatim and scanning restarts at
the current character; this is sound because no buffered character other than
the leading `<` can begin a match. -/

inductive BrState where
  | s0 : BrState
  | s1 : BrState
  | s2 : Char → BrState
  | s3 : Char → Char → List Char → BrState
  | s4 : Char → Char → List Char → BrState

/-- Characters buffered so far by a `BrState`. -/
def brBuf : BrState → List Char
  | .s0 => []
  | .s1 => ['<']
  | .s2 b => ['<', b]
  | .s3 b r p => '<' :: b :: r :: p
  | .s4 b r p => '<' :: b :: r :: p ++ ['/']

/-- Scanner for the `<br\s*/?>` substitution. -/
def subBrAux (st : BrState) : List Char → List Char
  | [] => brBuf st
  | c :: rest =>
    match st with
    | .s0 =>
      if c = '<' then subBrAux .s1 rest else c :: subBrAux .s0 rest
    | .s1 =>
      if c = 'b' || c = 'B' then subBrAux (.s2 c) rest
      else '<' :: (if c = '<' then subBrAux .s1 rest else c :: subBrAux .s0 rest)
    | .s2 b =>
      if c = 'r' || c = 'R' then subBrAux (.s3 b c []) rest
      else '<' :: b :: (if c = '<' then subBrAux .s1 rest else c :: subBrAux .s0 rest)
    | .s3 b r p =>
      if c = '>' then '\n' :: subBrAux .s0 rest
      else if pyWs c then subBrAux (.s3 b r (p ++ [c])) rest
      else if c = '/' then subBrAux (.s4 b r p) rest
      else '<' :: b :: r :: p ++ (if c = '<' then subBrAux .s1 rest else c :: subBrAux .s0 rest)
    | .s4 b r p =>
      if c = '>' then '\n' :: subBrAux .s0 rest
      else '<' :: b :: r :: p ++ '/' ::
        (if c = '<' then subBrAux .s1 rest else c :: subBrAux .s0 rest)

/-- The HTML line-break substitution of text_cleaner.py, step 1. -/
def subBr (l : List Char) : List Char := subBrAux .s0 l

/-! ### Stage 2a: `re.sub(rf"(\w)\s*{RC}\s*(\w)", r"\1 — \2", text)`

Scanner state: `tent` - a word character followed by whitespace and the
marker has been seen (a tentative match, pending the closing `\w`);
`prevW` - the last emitted non-whitespace character is a word character and
may serve as the `\1` of a match; `pend` - whitespace run after `\1`;
`pend2` - whitespace run after the marker.  After a successful replacement
`prevW` is false: the consumed `\2` cannot begin another match. -/

def sub2aAux (tent prevW : Bool) (pend pend2 : List Char) : List Char → List Char
  | [] => if tent then pend ++ repChar :: pend2 else pend
  | c :: rest =>
    if tent then
      if pyWs c then sub2aAux true prevW pend (pend2 ++ [c]) rest
      else if isWordChar c then ' ' :: emDash :: ' ' :: c :: sub2aAux false false [] [] rest
      else pend ++ repChar :: pend2 ++ c :: sub2aAux false false [] [] rest
    else
      if c = repChar then
        if prevW then sub2aAux true false pend [] rest
        else pend ++ c :: sub2aAux false false [] [] rest
      else if pyWs c then sub2aAux false prevW (pend ++ [c]) [] rest
      else pend ++ c :: sub2aAux false (isWordChar c) [] [] rest

/-- The word-marker-word mojibake rule of text_cleaner.py, step 2 first sub. -/
def sub2a (l : List Char) : List Char := sub2aAux false false [] [] l

/-! ### Stage 2b: `re.sub(rf"(\d)\s*{RC}\s*", r"\1€ ", text)`

`absorb` - inside the trailing `\s*` of a match (those characters are
consumed); `prevD` - the last emitted non-whitespace character is a digit;
`pend` - pending whitespace run. -/

def sub2bAux (absorb prevD : Bool) (pend : List Char) : List Char → List Char
  | [] => if absorb then [] else pend
  | c :: rest =>
    if absorb then
      if pyWs c then sub2bAux true false [] rest
      else c :: sub2bAux false (isDigitChar c) [] rest
    else
      if c = repChar then
        if prevD then euroChar :: ' ' :: sub2bAux true false [] rest
        else pend ++ c :: sub2bAux false false [] rest
      else if pyWs c then sub2bAux false prevD (pend ++ [c]) rest
      else pend ++ c :: sub2bAux false (isDigitChar c) [] rest

/-- The digit-marker rule of text_cleaner.py, step 2 second sub. -/
def sub2b (l : List Char) : List Char := sub2bAux false false [] l

/-! ### Stage 2c: `re.sub(rf"\s*{RC}\s*", " — ", text)` -/

def sub2cAux (absorb : Bool) (pend : List Char) : List Char → List Char
  | [] => if absorb then [] else pend
  | c :: rest =>
    if absorb then
      if pyWs c then sub2cAux true [] rest
      else if c = repChar then ' ' :: emDash :: ' ' :: sub2cAux true [] rest
      else c :: sub2cAux false [] rest
    else
      if c = repChar then ' ' :: emDash :: ' ' :: sub2cAux true [] rest
      else if pyWs c then sub2cAux false (pend ++ [c]) rest
      else pend ++ c :: sub2cAux false [] rest

/-- The fallback marker rule of text_cleaner.py, step 2 third sub. -/
def sub2c (l : List Char) : List Char := sub2cAux false [] l

/-! ### Stage 3a: `re.sub(r"\beur\b", "EUR", text, flags=re.IGNORECASE)` -/

/-- Letter `e` in either case. -/
def isE (c : Char) : Bool := c = 'e' || c = 'E'

/-- Letter `u` in either case. -/
def isU (c : Char) : Bool := c = 'u' || c = 'U'

/-- Letter `r` in either case. -/
def isR (c : Char) : Bool := c = 'r' || c = 'R'

/-- Whether a list starts with a word character (used for the trailing `\b`). -/
def headWord : List Char → Bool
  | c :: _ => isWordChar c
  | [] => false

/-- Scanner for `\beur\b` (case-insensitive): `prevW` tracks whether the
previous character of the original string is a word character, which decides
the leading word boundary. -/
def eurUpperAux (prevW : Bool) : List Char → List Char
  | c1 :: c2 :: c3 :: rest =>
    if !prevW && isE c1 && isU c2 && isR c3 && !headWord rest then
      'E' :: 'U' :: 'R' :: eurUpperAux true rest
    else c1 :: eurUpperAux (isWordChar c1) (c2 :: c3 :: rest)
  | c :: rest => c :: eurUpperAux (isWordChar c) rest
  | [] => []

/-- The bare-currency-code upper-casing of text_cleaner.py, step 3 first sub. -/
def eurUpper (l : List Char) : List Char := eurUpperAux false l

/-! ### Stage 3b: `re.sub(r"(\d+(?:[.,]\d+)?)\s*€\s*", r"\1 EUR ", text)`

Because the replacement copies the matched amount `\1` verbatim, the net
effect of a match is: the whitespace before the euro sign, the euro sign and
the whitespace after it are replaced by `" EUR "`; a match exists exactly
when the character preceding that whitespace run is a digit. -/

/-- Replacement text inserted after the amount. -/
def eurSp : List Char := [' ', 'E', 'U', 'R', ' ']

def euroSubAux (absorb prevD : Bool) (pend : List Char) : List Char → List Char
  | [] => if absorb then [] else pend
  | c :: rest =>
    if absorb then
      if pyWs c then euroSubAux true false [] rest
      else c :: euroSubAux false (isDigitChar c) [] rest
    else
      if c = euroChar then
        if prevD then eurSp ++ euroSubAux true false [] rest
        else pend ++ c :: euroSubAux false false [] rest
      else if pyWs c then euroSubAux false prevD (pend ++ [c]) rest
      else pend ++ c :: euroSubAux false (isDigitChar c) [] rest

/-- The amount-euro-sign rewriting of text_cleaner.py, step 3 second sub. -/
def euroSub (l : List Char) : List Char := euroSubAux false false [] l

/-! ### Stage 4: merging of table-row continuation lines -/

/-- Python `text.split("\n")`. -/
def splitNl : List Char → List (List Char)
  | [] => [[]]
  | c :: rest =>
    if c = '\n' then [] :: splitNl rest
    else
      match splitNl rest with
      | l :: ls => (c :: l) :: ls
      | [] => [[c]]

/-- Python `"\n".join(lines)`. -/
def nlJoin : List (List Char) → List Char
  | [] => []
  | [l] => l
  | l :: ls => l ++ '\n' :: nlJoin ls

/-- Python `line.rstrip()`. -/
def rstripL (l : List Char) : List Char := (l.reverse.dropWhile pyWs).reverse

/-- Python `line.strip()`. -/
def pyStripL (l : List Char) : List Char := rstripL (l.dropWhile pyWs)

/-- Whether a stripped line ends with the table delimiter but does not start
with it (`stripped.endswith("|") and not stripped.startswith("|")`). -/
def isContLine (l : List Char) : Bool :=
  (pyStripL l).getLast? = some '|' && !((pyStripL l).head? = some '|')

/-- Python `merged[-1] = merged[-1] + " " + stripped`. -/
def appendCont (s : List Char) : List (List Char) → List (List Char)
  | [] => []
  | [x] => [x ++ ' ' :: s]
  | x :: xs => x :: appendCont s xs

/-- One iteration of the merging loop of text_cleaner.py, step 4. -/
def mergeStep (merged : List (List Char)) (line : List Char) : List (List Char) :=
  if isContLine line && !merged.isEmpty then appendCont (pyStripL line) merged
  else merged ++ [line]

/-- The whole merging loop over the lines. -/
def mergeLines (ls : List (List Char)) : List (List Char) := ls.foldl mergeStep []

/-! ### Stage 5: whitespace normalization -/

/-- Emit a run of `min k 2` newlines: the effect of `re.sub(r"\n{3,}", "\n\n", ...)`
on a maximal run of `k` newlines. -/
def nlRun (k : Nat) : List Char := List.replicate (min k 2) '\n'

def collapseNlAux (k : Nat) : List Char → List Char
  | [] => nlRun k
  | c :: rest =>
    if c = '\n' then collapseNlAux (k + 1) rest
    else nlRun k ++ c :: collapseNlAux 0 rest

/-- Python `re.sub(r"\n{3,}", "\n\n", text)`. -/
def collapseNl (l : List Char) : List Char := collapseNlAux 0 l

/-- Drop leading newline characters. -/
def dropNl (l : List Char) : List Char := l.dropWhile (fun c => c = '\n')

/-- Drop trailing newline characters. -/
def rdropNl (l : List Char) : List Char := (dropNl l.reverse).reverse

/-- Python `text.strip("\n")`. -/
def stripNlEnds (l : List Char) : List Char := dropNl (rdropNl l)

/-- Steps 4 and 5 of text_cleaner.py after the merge, starting from the merged
line list. -/
def wsFinish (merged : List (List Char)) : List Char :=
  stripNlEnds (collapseNl (nlJoin (merged.map rstripL)))

/-- Core of `normalize_for_llm` on character lists: the five steps in source
order. -/
def normalizeCore (raw : List Char) : List Char :=
  wsFinish (mergeLines (splitNl (euroSub (eurUpper (sub2c (sub2b (sub2a (subBr raw))))))))

/-- `normalize_for_llm` of text_cleaner.py (`if not raw: return raw` first). -/
def normalize_for_llm (raw : String) : String :=
  if raw.data.isEmpty then raw else String.mk (normalizeCore raw.data)

/-! ### `_strip_json_block` of receive_json.py / enrich_from_json.py

`re.search(r"```(?:json)?\s*([\s\S]*?)\s*```", raw.strip())`: because the lazy
interior matches any character, a match exists exactly when the stripped input
contains a fence (three backticks) followed, after the optional tag, by
another fence; the group, once trimmed, is the text between the end of the
first fence (tag dropped) and the start of the next fence.  If the first
fence has no later closing fence, no other start position can succeed either,
so the whole input (trimmed) is returned. -/

/-- Backtick character. -/
def bt : Char := Char.ofNat 96

/-- Whether three characters form a fence (three backticks). -/
def isFence3 (x y z : Char) : Bool := x = bt && y = bt && z = bt

/-- Split at the first fence (three consecutive backticks): returns the part
before the fence and the part after it, or `none` when there is no fence. -/
def splitAtFence : List Char → Option (List Char × List Char)
  | c1 :: c2 :: c3 :: rest =>
    if isFence3 c1 c2 c3 then some ([], rest)
    else
      match splitAtFence (c2 :: c3 :: rest) with
      | some (p, r) => some (c1 :: p, r)
      | none => none
  | _ => none

/-- Consume the optional `json` tag right after the opening fence. -/
def dropJsonTag : List Char → List Char
  | 'j' :: 's' :: 'o' :: 'n' :: rest => rest
  | l => l

/-- Core of `_strip_json_block` on character lists. -/
def stripJsonBlockCore (l : List Char) : List Char :=
  match splitAtFence (pyStripL l) with
  | none => pyStripL l
  | some (_, rest) =>
    match splitAtFence (dropJsonTag rest) with
    | none => pyStripL l
    | some (interior, _) => pyStripL interior

/-- `_strip_json_block` (identical in receive_json.py and enrich_from_json.py). -/
def stripJsonBlock (s : String) : String := String.mk (stripJsonBlockCore s.data)

/-! ### JSON values and `json.loads`

A recursive-descent parser for the JSON accepted by Python's `json.loads`
with its default settings (strict strings, last duplicate object key wins).
Number literals are kept as their lexemes, so no floating-point semantics is
needed.  Not modelled: the `NaN`/`Infinity` extensions and surrogate escape
pairs; on those inputs the model parser fails where Python would succeed,
which only shrinks the domain of the theorems below (none of them relies on
such inputs). -/

inductive Json where
  | null : Json
  | bool : Bool → Json
  | num : List Char → Json
  | str : List Char → Json
  | arr : List Json → Json
  | obj : List (List Char × Json) → Json

/-- Whether a parsed value is a JSON object (a Python `dict`). -/
def Json.isObj : Json → Bool
  | .obj _ => true
  | _ => false

/-- JSON whitespace (the only characters `json.loads` skips between tokens). -/
def jsonWs (c : Char) : Bool := c = ' ' || c = '\t' || c = '\n' || c = '\r'

/-- Skip JSON whitespace. -/
def skipJsonWs (l : List Char) : List Char := l.dropWhile jsonWs

/-- Value of a hexadecimal digit. -/
def hexVal (c : Char) : Option Nat :=
  if 48 ≤ c.toNat && c.toNat ≤ 57 then some (c.toNat - 48)
  else if 97 ≤ c.toNat && c.toNat ≤ 102 then some (c.toNat - 87)
  else if 65 ≤ c.toNat && c.toNat ≤ 70 then some (c.toNat - 55)
  else none

/-- Combine four hex digits. -/
def hex4 (h1 h2 h3 h4 : Char) : Option Nat :=
  match hexVal h1, hexVal h2, hexVal h3, hexVal h4 with
  | some a, some b, some c, some d => some (((a * 16 + b) * 16 + c) * 16 + d)
  | _, _, _, _ => none

/-- Single-character escapes of JSON strings. -/
def escChar (e : Char) : Option Char :=
  if e = '"' then some '"'
  else if e = '\\' then some '\\'
  else if e = '/' then some '/'
  else if e = 'b' then some '\x08'
  else if e = 'f' then some '\x0c'
  else if e = 'n' then some '\n'
  else if e = 'r' then some '\r'
  else if e = 't' then some '\t'
  else none

/-- Parse the body of a JSON string after its opening quote; returns the
decoded content and the input after the closing quote. -/
def parseJString : List Char → Option (List Char × List Char)
  | [] => none
  | c :: rest =>
    if c = '"' then some ([], rest)
    else if c = '\\' then
      match rest with
      | 'u' :: h1 :: h2 :: h3 :: h4 :: rest2 =>
        match hex4 h1 h2 h3 h4 with
        | some n =>
          if n < 55296 || 57343 < n then
            (parseJString rest2).map (fun p => (Char.ofNat n :: p.1, p.2))
          else none
        | none => none
      | e :: rest2 =>
        match escChar e with
        | some ch => (parseJString rest2).map (fun p => (ch :: p.1, p.2))
        | none => none
      | [] => none
    else if c.toNat < 32 then none
    else (parseJString rest).map (fun p => (c :: p.1, p.2))

/-- Lex a JSON number literal (`-?(0|[1-9][0-9]*)(\.[0-9]+)?([eE][+-]?[0-9]+)?`);
returns the lexeme and the rest of the input. -/
def parseJNum (l : List Char) : Option (List Char × List Char) :=
  let (neg, l1) := match l with
    | '-' :: r => (['-'], r)
    | _ => (([] : List Char), l)
  match l1 with
  | [] => none
  | c :: _ =>
    if !c.isDigit then none
    else if c = '0' then
      match l1 with
      | _ :: r1 =>
        let (frac, r2) := match r1 with
          | '.' :: r => match r.takeWhile Char.isDigit with
            | [] => (([] : List Char), r1)
            | ds => ('.' :: ds, r.dropWhile Char.isDigit)
          | _ => (([] : List Char), r1)
        let (ex, r3) := match r2 with
          | e :: sgn :: r =>
            if (e = 'e' || e = 'E') && (sgn = '+' || sgn = '-') then
              match r.takeWhile Char.isDigit with
              | [] => (([] : List Char), r2)
              | ds => (e :: sgn :: ds, r.dropWhile Char.isDigit)
            else if (e = 'e' || e = 'E') && sgn.isDigit then
              (e :: (sgn :: r).takeWhile Char.isDigit, (sgn :: r).dropWhile Char.isDigit)
            else (([] : List Char), r2)
          | [e] =>
            (([] : List Char), [e])
          | [] => (([] : List Char), r2)
        some (neg ++ '0' :: frac ++ ex, r3)
      | [] => none
    else
      let ds := l1.takeWhile Char.isDigit
      let r1 := l1.dropWhile Char.isDigit
      let (frac, r2) := match r1 with
        | '.' :: r => match r.takeWhile Char.isDigit with
          | [] => (([] : List Char), r1)
          | fs => ('.' :: fs, r.dropWhile Char.isDigit)
        | _ => (([] : List Char), r1)
      let (ex, r3) := match r2 with
        | e :: sgn :: r =>
          if (e = 'e' || e = 'E') && (sgn = '+' || sgn = '-') then
            match r.takeWhile Char.isDigit with
            | [] => (([] : List Char), r2)
            | es => (e :: sgn :: es, r.dropWhile Char.isDigit)
          else if (e = 'e' || e = 'E') && sgn.isDigit then
            (e :: (sgn :: r).takeWhile Char.isDigit, (sgn :: r).dropWhile Char.isDigit)
          else (([] : List Char), r2)
        | [e] => (([] : List Char), [e])
        | [] => (([] : List Char), r2)
      some (neg ++ ds ++ frac ++ ex, r3)

/-- Insert a key/value pair with Python-dict semantics: an existing key keeps
its position and gets the new value, a new key is appended. -/
def objInsert (pairs : List (List Char × Json)) (k : List Char) (v : Json) :
    List (List Char × Json) :=
  match pairs with
  | [] => [(k, v)]
  | (k0, v0) :: rest =>
    if k0 = k then (k0, v) :: rest else (k0, v0) :: objInsert rest k v

/-- Parser stack frames: an array collecting reversed elements, or an object
collecting pairs together with the key whose value is being parsed. -/
inductive JFrame where
  | arrF : List Json → JFrame
  | objF : List (List Char × Json) → List Char → JFrame

/-- Parser state: expecting a value, or holding a finished value. -/
inductive JState where
  | expectVal : List Char → List JFrame → JState
  | haveVal : Json → List Char → List JFrame → JState

/-- One fuelled run of the JSON parser; every step consumes fuel, and a fuel
of twice the input length plus a constant always suffices. -/
def jsonRun : Nat → JState → Option (Json × List Char)
  | 0, _ => none
  | Nat.succ n, .expectVal input stack =>
    match skipJsonWs input with
    | 'n' :: 'u' :: 'l' :: 'l' :: rest => jsonRun n (.haveVal .null rest stack)
    | 't' :: 'r' :: 'u' :: 'e' :: rest => jsonRun n (.haveVal (.bool true) rest stack)
    | 'f' :: 'a' :: 'l' :: 's' :: 'e' :: rest => jsonRun n (.haveVal (.bool false) rest stack)
    | '"' :: rest =>
      match parseJString rest with
      | some (s, rest2) => jsonRun n (.haveVal (.str s) rest2 stack)
      | none => none
    | '[' :: rest =>
      match skipJsonWs rest with
      | ']' :: rest2 => jsonRun n (.haveVal (.arr []) rest2 stack)
      | _ => jsonRun n (.expectVal rest (.arrF [] :: stack))
    | '{' :: rest =>
      match skipJsonWs rest with
      | '}' :: rest2 => jsonRun n (.haveVal (.obj []) rest2 stack)
      | '"' :: rest2 =>
        match parseJString rest2 with
        | some (k, rest3) =>
          match skipJsonWs rest3 with
          | ':' :: rest4 => jsonRun n (.expectVal rest4 (.objF [] k :: stack))
          | _ => none
        | none => none
      | _ => none
    | other =>
      match parseJNum other with
      | some (lit, rest) => jsonRun n (.haveVal (.num lit) rest stack)
      | none => none
  | Nat.succ n, .haveVal v input stack =>
    match stack with
    | [] => some (v, input)
    | .arrF elems :: stack2 =>
      match skipJsonWs input with
      | ',' :: rest => jsonRun n (.expectVal rest (.arrF (v :: elems) :: stack2))
      | ']' :: rest => jsonRun n (.haveVal (.arr (v :: elems).reverse) rest stack2)
      | _ => none
    | .objF pairs k :: stack2 =>
      match skipJsonWs input with
      | ',' :: rest =>
        match skipJsonWs rest with
        | '"' :: rest2 =>
          match parseJString rest2 with
          | some (k2, rest3) =>
            match skipJsonWs rest3 with
            | ':' :: rest4 => jsonRun n (.expectVal rest4 (.objF (objInsert pairs k v) k2 :: stack2))
            | _ => none
          | none => none
        | _ => none
      | '}' :: rest => jsonRun n (.haveVal (.obj (objInsert pairs k v)) rest stack2)
      | _ => none

/-- Core of `json.loads` on character lists: parse one value and require only
whitespace to remain. -/
def jsonLoadsCore (l : List Char) : Option Json :=
  match jsonRun (2 * l.length + 8) (.expectVal l []) with
  | some (v, rest) => if (skipJsonWs rest).isEmpty then some v else none
  | none => none

/-- `json.loads` on strings. -/
def jsonLoads (s : String) : Option Json := jsonLoadsCore s.data

/-! ### The contract entry points

Each entry point takes the externally supplied credential and the would-be
response of the external capability as explicit inputs; the function body
performs exactly the checks the Python code performs, in the same order, so
that "fails before the request is submitted" is visible as the result being
a fixed error independent of the response argument. -/

/-- Python truthiness test used by `_get_api_key`:
`if not key or not key.strip()` for `key = os.environ.get(...)`. -/
def blankStr (s : String) : Bool := s.isEmpty || (pyStripL s.data).isEmpty

/-- Whether the configured API key is absent or whitespace-only. -/
def apiKeyBlank : Option String → Bool
  | none => true
  | some s => blankStr s

inductive ExtractErr where
  | apiKeyMissing : ExtractErr
  | emptyResponse : ExtractErr
  | invalidJson : ExtractErr

/-- `extract_structured_data` of receive_json.py: the key is checked first
(`genai.configure(api_key=_get_api_key())`), an empty response raises, the
fence-stripped response is given to `json.loads`, and the parsed value is
returned as-is (no object-type check is performed). -/
def extract_structured_data (apiKey : Option String) (responseText : String) :
    Except ExtractErr Json :=
  if apiKeyBlank apiKey then .error .apiKeyMissing
  else if responseText.isEmpty then .error .emptyResponse
  else
    match jsonLoads (stripJsonBlock responseText) with
    | some j => .ok j
    | none => .error .invalidJson

/-- Substring test, Python `needle in haystack` for strings. -/
def isSubstr (pat : List Char) : List Char → Bool
  | [] => pat.isEmpty
  | c :: rest => (pat.isPrefixOf (c :: rest)) || isSubstr pat rest

/-- Python `k in out` for a parsed JSON value `out` and a string `k`:
key membership for dicts, element equality for lists, substring test for
strings, and a `TypeError` (modelled as `none`) otherwise. -/
def pyContains (j : Json) (k : List Char) : Option Bool :=
  match j with
  | .obj kvs => some (kvs.any (fun p => p.1 = k))
  | .arr xs => some (xs.any (fun x => match x with
      | .str s => s = k
      | _ => false))
  | .str s => some (isSubstr k s)
  | _ => none

/-- First required key of the enrichment response. -/
def mktKey : List Char := "marketing_summary".data

/-- Second required key of the enrichment response. -/
def imgKey : List Char := "image_prompt".data

inductive EnrichErr where
  | apiKeyMissing : EnrichErr
  | emptyResponse : EnrichErr
  | invalidJson : EnrichErr
  | missingKey : EnrichErr
  | typeErr : EnrichErr

/-- `generate_summary_and_prompt` of enrich_from_json.py: key first, then the
empty-response check, then `json.loads` on the fence-stripped text (a parse
failure propagates as `JSONDecodeError`), then
`if "marketing_summary" not in out or "image_prompt" not in out: raise`,
evaluated with Python's short-circuit `or` and `in` semantics. -/
def generate_summary_and_prompt (apiKey : Option String) (responseText : String) :
    Except EnrichErr Json :=
  if apiKeyBlank apiKey then .error .apiKeyMissing
  else if responseText.isEmpty then .error .emptyResponse
  else
    match jsonLoads (stripJsonBlock responseText) with
    | none => .error .invalidJson
    | some out =>
      match pyContains out mktKey with
      | none => .error .typeErr
      | some false => .error .missingKey
      | some true =>
        match pyContains out imgKey with
        | none => .error .typeErr
        | some false => .error .missingKey
        | some true => .ok out

/-! ### `generate_image` of image_generation.py -/

/-- The `inline_data` carried by a response part (`data` may be missing). -/
structure InlineData where
  data : Option (List Nat)

/-- One part of a candidate's content. -/
structure GPart where
  inline_data : Option InlineData

/-- One candidate of the image response (`candidate.content.parts`). -/
structure Candidate where
  parts : List GPart

/-- The image-generation response. -/
structure GenResponse where
  candidates : List Candidate

inductive ImageErr where
  | promptEmpty : ImageErr
  | apiKeyMissing : ImageErr

/-- The loop over `response.candidates[0].content.parts`: the first part whose
`inline_data` is present and carries truthy `data` yields that payload. -/
def firstInlineImage : List GPart → Option (List Nat)
  | [] => none
  | p :: rest =>
    match p.inline_data with
    | some d =>
      match d.data with
      | some raw => if raw.isEmpty then firstInlineImage rest else some raw
      | none => firstInlineImage rest
    | none => firstInlineImage rest

/-- `generate_image` of image_generation.py: the prompt emptiness check comes
first (before the client is even created), then the key check, then the
response is examined; no candidates, or no part of the first candidate with
truthy inline data, yields `none` (the absent outcome) rather than an error. -/
def generate_image (apiKey : Option String) (prompt : String) (resp : GenResponse) :
    Except ImageErr (Option (List Nat)) :=
  if blankStr prompt then .error .promptEmpty
  else if apiKeyBlank apiKey then .error .apiKeyMissing
  else
    match resp.candidates with
    | [] => .ok none
    | c :: _ => .ok (firstInlineImage c.parts)

/-! ## Theorems -/

/-- A part that carries no inline binary data: `inline_data` absent, or its
`data` attribute absent or empty (falsy). -/
def noInlineData (p : GPart) : Prop :=
  p.inline_data = none ∨ ∃ d, p.inline_data = some d ∧ (d.data = none ∨ d.data = some [])

/-- If no part of a list carries inline data, the scan yields nothing. -/
theorem firstInlineImage_none (parts : List GPart) (h : ∀ p ∈ parts, noInlineData p) :
    firstInlineImage parts = none := by
  induction parts with
  | nil => rfl
  | cons p rest ih =>
    have hp : noInlineData p := h p (List.mem_cons_self p rest)
    have hrest : ∀ q ∈ rest, noInlineData q := fun q hq => h q (List.mem_cons_of_mem p hq)
    rcases hp with h1 | ⟨d, hd, h2⟩
    · simp [firstInlineImage, h1, ih hrest]
    · rcases h2 with h2 | h2
      · simp [firstInlineImage, hd, h2, ih hrest]
      · simp [firstInlineImage, hd, h2, ih hrest]

/-- C8: for every image-generation response that contains no candidate
outputs, or whose candidates all carry no inline binary data (in particular a
response with exactly one candidate and no inline data), `generate_image`
returns the absent outcome `none` and raises no error (given a usable prompt
and key, so that the earlier guards do not fire). -/
theorem c8_no_inline_data_absent (key : Option String) (prompt : String) (resp : GenResponse)
    (hp : blankStr prompt = false) (hk : apiKeyBlank key = false)
    (hresp : ∀ cand ∈ resp.candidates, ∀ part ∈ cand.parts, noInlineData part) :
    generate_image key prompt resp = .ok none := by
  unfold generate_image
  rw [hp, hk]
  simp only [Bool.false_eq_true, if_false]
  cases hc : resp.candidates with
  | nil => rfl
  | cons c cs =>
    have hcp : ∀ part ∈ c.parts, noInlineData part := by
      intro part hpart
      exact hresp c (by rw [hc]; exact List.mem_cons_self c cs) part hpart
    show Except.ok (firstInlineImage c.parts) = Except.ok none
    rw [firstInlineImage_none c.parts hcp]

/-- Witness for C8: one candidate whose single part has `inline_data = None`. -/
theorem c8_witness :
    generate_image (some "k") "poster" ⟨[⟨[⟨none⟩]⟩]⟩ = .ok none := by
  apply c8_no_inline_data_absent (some "k") "poster" ⟨[⟨[⟨none⟩]⟩]⟩ (by decide) (by decide)
  intro cand hcand part hpart
  simp only [List.mem_singleton] at hcand
  subst hcand
  simp only [List.mem_singleton] at hpart
  subst hpart
  exact Or.inl rfl

/-- C9: an empty or whitespace-only prompt makes `generate_image` fail with
the prompt error - and, since the result does not depend on the key or on any
response, before the external capability is consulted - while a prompt that
is not empty-or-whitespace never produces that error. -/
theorem c9_blank_prompt (key : Option String) (prompt : String) (resp : GenResponse) :
    (blankStr prompt = true → generate_image key prompt resp = .error .promptEmpty) ∧
    (blankStr prompt = false → generate_image key prompt resp ≠ .error .promptEmpty) := by
  constructor
  · intro h
    unfold generate_image
    rw [h]
    rfl
  · intro h
    unfold generate_image
    rw [h]
    simp only [Bool.false_eq_true, if_false]
    by_cases hk : apiKeyBlank key = true
    · rw [hk]
      simp
    · rw [Bool.not_eq_true] at hk
      rw [hk]
      simp only [Bool.false_eq_true, if_false]
      match resp.candidates with
      | [] => simp
      | c :: cs => simp

/-- Witness for C9: the empty prompt fails with the prompt error, a non-blank
prompt does not. -/
theorem c9_witness :
    generate_image (some "k") "" ⟨[]⟩ = .error .promptEmpty ∧
    generate_image (some "k") "poster" ⟨[]⟩ ≠ .error .promptEmpty :=
  ⟨(c9_blank_prompt (some "k") "" ⟨[]⟩).1 (by decide),
   (c9_blank_prompt (some "k") "poster" ⟨[]⟩).2 (by decide)⟩

/-- C10: with an absent or whitespace-only API key, each of the three
external-capability entry points fails with an error whose value does not
depend on the response argument - the failure therefore happens before any
request is submitted.  For `generate_image` the prompt guard runs first, so a
blank prompt surfaces the prompt error instead of the key error. -/
theorem c10_missing_key (key : Option String) (rp1 rp2 : String) (prompt : String)
    (resp : GenResponse) (hk : apiKeyBlank key = true) :
    extract_structured_data key rp1 = .error .apiKeyMissing ∧
    generate_summary_and_prompt key rp2 = .error .apiKeyMissing ∧
    (generate_image key prompt resp = .error .promptEmpty ∨
     generate_image key prompt resp = .error .apiKeyMissing) := by
  refine ⟨?_, ?_, ?_⟩
  · unfold extract_structured_data
    rw [hk]
    rfl
  · unfold generate_summary_and_prompt
    rw [hk]
    rfl
  · unfold generate_image
    rw [hk]
    by_cases hp : blankStr prompt = true
    · rw [hp]
      exact Or.inl rfl
    · rw [Bool.not_eq_true] at hp
      rw [hp]
      exact Or.inr rfl

/-- Witness for C10: the unset key (`None`) fails all three entry points. -/
theorem c10_witness :
    extract_structured_data none "{}" = .error .apiKeyMissing ∧
    generate_summary_and_prompt none "{}" = .error .apiKeyMissing ∧
    (generate_image none "poster" ⟨[]⟩ = .error .promptEmpty ∨
     generate_image none "poster" ⟨[]⟩ = .error .apiKeyMissing) :=
  c10_missing_key none "{}" "{}" "poster" ⟨[]⟩ (by decide)

/-- C2: the code does not validate that the parsed response is object-typed:
a generator response whose JSON is the array `[1, 2]` is parsed and returned
as a successful result, although the function's own docstring and return
annotation promise a dict.  This contradicts the claim that a non-object
parse cannot be returned successfully. -/
theorem c2_nonobject_returned :
    extract_structured_data (some "k") "[1, 2]" =
      .ok (Json.arr [Json.num ['1'], Json.num ['2']]) ∧
    Json.isObj (Json.arr [Json.num ['1'], Json.num ['2']]) = false := by
  exact ⟨by rfl, by rfl⟩

/-- C4 (amended): `generate_summary_and_prompt` fails exactly when the
response is empty, not parseable as JSON after fence-stripping, of a type not
supporting key membership, or missing at least one of the two required keys;
equivalently, on a parseable non-empty response it succeeds (returning the
parsed value) precisely when both `marketing_summary` and `image_prompt` are
present. -/
theorem c4_success_iff_both_keys (key : Option String) (r : String) (j : Json)
    (hk : apiKeyBlank key = false) (hr : r.isEmpty = false)
    (hparse : jsonLoads (stripJsonBlock r) = some j) :
    generate_summary_and_prompt key r = .ok j ↔
      (pyContains j mktKey = some true ∧ pyContains j imgKey = some true) := by
  unfold generate_summary_and_prompt
  rw [hk, hr]
  simp only [Bool.false_eq_true, if_false]
  rw [hparse]
  cases h1 : pyContains j mktKey with
  | none => simp [h1]
  | some b1 =>
    cases b1 with
    | false => simp [h1]
    | true =>
      cases h2 : pyContains j imgKey with
      | none => simp [h1, h2]
      | some b2 =>
        cases b2 with
        | false => simp [h1, h2]
        | true => simp [h1, h2]

/-- Witness for C4: a response with both keys succeeds and returns the parsed
object. -/
theorem c4_witness :
    generate_summary_and_prompt (some "k")
        "\x7b\"marketing_summary\": \"a\", \"image_prompt\": \"b\"\x7d" =
      .ok (Json.obj [("marketing_summary".data, Json.str ['a']),
                     ("image_prompt".data, Json.str ['b'])]) :=
  (c4_success_iff_both_keys (some "k") _ _ (by decide) (by decide) (by rfl)).mpr
    ⟨by rfl, by rfl⟩

/-! ### Lemmas about `splitAtFence` for C5 -/

/-- Unfolding equation of `splitAtFence` on a three-cons list. -/
theorem splitAtFence_cons3 (x y z : Char) (rest : List Char) :
    splitAtFence (x :: y :: z :: rest) =
      if isFence3 x y z then some ([], rest)
      else
        match splitAtFence (y :: z :: rest) with
        | some (p, r) => some (x :: p, r)
        | none => none := rfl

/-- A fence at the very front splits there. -/
theorem splitAtFence_fence (r : List Char) :
    splitAtFence (bt :: bt :: bt :: r) = some ([], r) := by
  rw [splitAtFence_cons3, if_pos (by decide : isFence3 bt bt bt = true)]

/-- Prepending one character preserves the presence of a fence. -/
theorem hasFence_cons (c : Char) : ∀ l : List Char, splitAtFence l ≠ none →
    splitAtFence (c :: l) ≠ none
  | [], h => absurd rfl h
  | [_], h => absurd rfl h
  | x :: y :: rest, h => by
    rw [splitAtFence_cons3]
    by_cases hb : isFence3 c x y = true
    · rw [if_pos hb]
      exact Option.some_ne_none _
    · rw [if_neg hb]
      cases hs : splitAtFence (x :: y :: rest) with
      | none => exact absurd hs h
      | some p =>
        cases p with
        | mk p1 r1 => exact Option.some_ne_none _

/-- Prepending a list preserves the presence of a fence. -/
theorem hasFence_append_left (u l : List Char) (h : splitAtFence l ≠ none) :
    splitAtFence (u ++ l) ≠ none := by
  induction u with
  | nil => exact h
  | cons c u ih => exact hasFence_cons c _ ih

/-- If a cons has no fence, neither has its tail. -/
theorem splitAtFence_tail_none : ∀ {x : Char} {l : List Char},
    splitAtFence (x :: l) = none → splitAtFence l = none := by
  intro x l h
  match l with
  | [] => rfl
  | [_] => rfl
  | y :: z :: rest =>
    cases hs : splitAtFence (y :: z :: rest) with
    | none => rfl
    | some p =>
      exfalso
      rw [splitAtFence_cons3] at h
      by_cases hb : isFence3 x y z = true
      · rw [if_pos hb] at h
        exact Option.noConfusion h
      · rw [if_neg hb, hs] at h
        cases p with
        | mk p1 r1 => exact Option.noConfusion h

/-- Appending a list preserves the presence of a fence. -/
theorem hasFence_append_right (v : List Char) : ∀ l : List Char, splitAtFence l ≠ none →
    splitAtFence (l ++ v) ≠ none
  | [], h => absurd rfl h
  | [_], h => absurd rfl h
  | [_, _], h => absurd rfl h
  | x :: y :: z :: rest, h => by
    by_cases hb : isFence3 x y z = true
    · show splitAtFence (x :: y :: z :: (rest ++ v)) ≠ none
      rw [splitAtFence_cons3, if_pos hb]
      exact Option.some_ne_none _
    · have hinner : splitAtFence (y :: z :: rest) ≠ none := by
        intro hn
        apply h
        rw [splitAtFence_cons3, if_neg hb, hn]
      have hrec := hasFence_append_right v (y :: z :: rest) hinner
      exact hasFence_cons x _ hrec

/-- Prepending a non-backtick character to a fence-free list keeps it
fence-free. -/
theorem splitAtFence_cons_none (c : Char) (l : List Char) (hc : c ≠ bt)
    (h : splitAtFence l = none) : splitAtFence (c :: l) = none := by
  match l with
  | [] => rfl
  | [_] => rfl
  | x :: y :: rest =>
    rw [splitAtFence_cons3, if_neg (by simp [isFence3, hc]), h]

/-- Appending a non-backtick character to a fence-free list keeps it
fence-free. -/
theorem splitAtFence_append_one : ∀ (a : List Char) (c : Char), splitAtFence a = none →
    c ≠ bt → splitAtFence (a ++ [c]) = none
  | [], _, _, _ => rfl
  | [_], _, _, _ => rfl
  | [x, y], c, _, hc => by
    show splitAtFence (x :: y :: c :: []) = none
    rw [splitAtFence_cons3, if_neg (by simp [isFence3, hc])]
    rfl
  | x :: y :: z :: rest, c, h, hc => by
    have hb : isFence3 x y z = false := by
      by_contra hbb
      rw [Bool.not_eq_false] at hbb
      rw [splitAtFence_cons3, if_pos hbb] at h
      exact Option.noConfusion h
    have hrec := splitAtFence_append_one (y :: z :: rest) c (splitAtFence_tail_none h) hc
    have hrec2 : splitAtFence (y :: z :: (rest ++ [c])) = none := hrec
    show splitAtFence (x :: y :: z :: (rest ++ [c])) = none
    rw [splitAtFence_cons3, if_neg (by rw [hb]; exact Bool.false_ne_true), hrec2]

/-- Splitting a fence-free list (not ending in a backtick) followed by a fence
yields exactly that list and the remainder after the fence. -/
theorem splitAtFence_append_close : ∀ (a r : List Char), splitAtFence a = none →
    a.getLast? ≠ some bt → splitAtFence (a ++ bt :: bt :: bt :: r) = some (a, r)
  | [], r, _, _ => splitAtFence_fence r
  | [x], r, _, hlast => by
    have hx : x ≠ bt := fun he => hlast (by rw [he]; rfl)
    show splitAtFence (x :: bt :: bt :: bt :: r) = some ([x], r)
    rw [splitAtFence_cons3, if_neg (by simp [isFence3, hx]), splitAtFence_fence]
  | x :: y :: rest, r, h, hlast => by
    have htail := splitAtFence_append_close (y :: rest) r (splitAtFence_tail_none h)
      (fun hcon => hlast (by rw [List.getLast?_cons_cons]; exact hcon))
    cases rest with
    | nil =>
      have hy : y ≠ bt := fun he => hlast (by rw [he]; rfl)
      have htail2 : splitAtFence (y :: bt :: bt :: bt :: r) = some ([y], r) := htail
      show splitAtFence (x :: y :: bt :: bt :: bt :: r) = some ([x, y], r)
      rw [splitAtFence_cons3, if_neg (by simp [isFence3, hy]), htail2]
    | cons z rest2 =>
      have hb : isFence3 x y z = false := by
        by_contra hbb
        rw [Bool.not_eq_false] at hbb
        rw [splitAtFence_cons3, if_pos hbb] at h
        exact Option.noConfusion h
      have htail2 : splitAtFence (y :: z :: (rest2 ++ bt :: bt :: bt :: r)) =
          some (y :: z :: rest2, r) := htail
      show splitAtFence (x :: y :: z :: (rest2 ++ bt :: bt :: bt :: r)) =
          some (x :: y :: z :: rest2, r)
      rw [splitAtFence_cons3, if_neg (by rw [hb]; exact Bool.false_ne_true), htail2]

/-! ### Whitespace-strip lemmas for C5 -/

/-- Dropping leading whitespace past one whitespace character. -/
theorem pyStripL_cons_ws (c : Char) (l : List Char) (hc : pyWs c = true) :
    pyStripL (c :: l) = pyStripL l := by
  simp [pyStripL, List.dropWhile_cons, hc]

/-- Right-stripping ignores a trailing whitespace character. -/
theorem rstripL_append_ws (m : List Char) (w : Char) (hw : pyWs w = true) :
    rstripL (m ++ [w]) = rstripL m := by
  simp [rstripL, List.dropWhile_cons, hw]

/-- Stripping ignores a trailing whitespace character. -/
theorem pyStripL_append_ws (l : List Char) (w : Char) (hw : pyWs w = true) :
    pyStripL (l ++ [w]) = pyStripL l := by
  unfold pyStripL
  rw [List.dropWhile_append]
  by_cases h : (l.dropWhile pyWs).isEmpty = true
  · rw [if_pos h]
    rw [List.isEmpty_iff] at h
    rw [h]
    simp [List.dropWhile_cons, hw, rstripL]
  · rw [if_neg h]
    exact rstripL_append_ws _ _ hw

/-- A list whose head is not whitespace keeps its head under `dropWhile`. -/
theorem dropWhile_eq_self_of_head (l : List Char)
    (h : ∀ c, l.head? = some c → pyWs c = false) : l.dropWhile pyWs = l := by
  cases l with
  | nil => rfl
  | cons c rest => rw [List.dropWhile_cons, h c rfl]; simp

/-- A list whose last character is not whitespace is unchanged by `rstripL`. -/
theorem rstripL_eq_self_of_last (l : List Char)
    (h : ∀ c, l.getLast? = some c → pyWs c = false) : rstripL l = l := by
  unfold rstripL
  rw [dropWhile_eq_self_of_head _ (by
    intro c hc
    rw [List.head?_reverse] at hc
    exact h c hc)]
  exact l.reverse_reverse

/-- A list with non-whitespace ends is unchanged by `pyStripL`. -/
theorem pyStripL_eq_self (l : List Char)
    (h1 : ∀ c, l.head? = some c → pyWs c = false)
    (h2 : ∀ c, l.getLast? = some c → pyWs c = false) : pyStripL l = l := by
  unfold pyStripL
  rw [dropWhile_eq_self_of_head _ h1]
  exact rstripL_eq_self_of_last _ h2

/-- The stripped text is a contiguous infix of the original. -/
theorem pyStripL_infix (l : List Char) : ∃ u v, l = u ++ pyStripL l ++ v := by
  refine ⟨l.takeWhile pyWs, ((l.dropWhile pyWs).reverse.takeWhile pyWs).reverse, ?_⟩
  unfold pyStripL rstripL
  conv_lhs => rw [← List.takeWhile_append_dropWhile (p := pyWs) (l := l)]
  rw [List.append_assoc]
  congr 1
  conv_lhs => rw [← List.reverse_reverse (l.dropWhile pyWs),
    ← List.takeWhile_append_dropWhile (p := pyWs) (l := (l.dropWhile pyWs).reverse),
    List.reverse_append]

/-- A fence-free text stays fence-free after stripping. -/
theorem noFence_pyStripL (s : List Char) (h : splitAtFence s = none) :
    splitAtFence (pyStripL s) = none := by
  by_contra hne
  obtain ⟨u, v, hs⟩ := pyStripL_infix s
  have h1 : splitAtFence (pyStripL s ++ v) ≠ none := hasFence_append_right v _ hne
  have h2 : splitAtFence (u ++ (pyStripL s ++ v)) ≠ none := hasFence_append_left u _ h1
  rw [List.append_assoc] at hs
  exact h2 (hs ▸ h)

/-- An outer fenced code block around an interior, optionally tagged `json`
(the fence delimiter is three backticks). -/
def wrapFence (tagged : Bool) (s : List Char) : List Char :=
  bt :: bt :: bt :: ((if tagged then ['j', 's', 'o', 'n'] else []) ++
    ('\n' :: s) ++ ['\n', bt, bt, bt])

/-- Evaluation of `stripJsonBlockCore` when both fence splits are known. -/
theorem stripJsonBlockCore_eq (l a rest interior r2 : List Char)
    (h1 : splitAtFence (pyStripL l) = some (a, rest))
    (h2 : splitAtFence (dropJsonTag rest) = some (interior, r2)) :
    stripJsonBlockCore l = pyStripL interior := by
  unfold stripJsonBlockCore
  simp only [h1, h2]

/-- Evaluation of `stripJsonBlockCore` when the input has no fence. -/
theorem stripJsonBlockCore_nofence (l : List Char)
    (h : splitAtFence (pyStripL l) = none) : stripJsonBlockCore l = pyStripL l := by
  unfold stripJsonBlockCore
  simp only [h]

/-- C5 (amended): for every interior that itself contains no fence delimiter,
`_strip_json_block` returns the same text - the trimmed interior - whether it
is given the bare interior or the interior wrapped in an outer fenced block
(tagged `json` or not); in particular a fence-free input is returned trimmed
and otherwise unchanged. -/
theorem c5_strip_wrapping (s : List Char) (tagged : Bool) (hs : splitAtFence s = none) :
    stripJsonBlockCore (wrapFence tagged s) = pyStripL s ∧
    stripJsonBlockCore s = pyStripL s := by
  have hw_strip : pyStripL (wrapFence tagged s) = wrapFence tagged s := by
    apply pyStripL_eq_self
    · intro c hc
      simp only [wrapFence, List.head?] at hc
      cases hc
      decide
    · intro c hc
      have hlast : (wrapFence tagged s).getLast? = some bt := by
        show ((bt :: bt :: bt :: ((if tagged then ['j', 's', 'o', 'n'] else []) ++
          ('\n' :: s))) ++ '\n' :: [bt, bt, bt]).getLast? = some bt
        rw [List.getLast?_append_cons]
        rfl
      rw [hlast] at hc
      cases hc
      decide
  have hA : splitAtFence (('\n' :: s) ++ ['\n']) = none :=
    splitAtFence_cons_none '\n' (s ++ ['\n']) (by decide)
      (splitAtFence_append_one s '\n' hs (by decide))
  have hB : (('\n' :: s) ++ ['\n']).getLast? ≠ some bt := by
    intro hcon
    rw [List.getLast?_append_cons] at hcon
    exact absurd hcon (by decide)
  have hmid : splitAtFence ((('\n' :: s) ++ ['\n']) ++ bt :: bt :: bt :: ([] : List Char)) =
      some (('\n' :: s) ++ ['\n'], []) := splitAtFence_append_close _ _ hA hB
  rw [List.append_assoc] at hmid
  have hinterior : pyStripL (('\n' :: s) ++ ['\n']) = pyStripL s := by
    rw [pyStripL_append_ws ('\n' :: s) '\n' (by decide)]
    exact pyStripL_cons_ws '\n' s (by decide)
  constructor
  · cases tagged with
    | true =>
      have h1 : splitAtFence (pyStripL (wrapFence true s)) =
          some ([], 'j' :: 's' :: 'o' :: 'n' :: (('\n' :: s) ++ ['\n', bt, bt, bt])) := by
        rw [hw_strip]
        exact splitAtFence_fence _
      have h2 : splitAtFence (dropJsonTag
          ('j' :: 's' :: 'o' :: 'n' :: (('\n' :: s) ++ ['\n', bt, bt, bt]))) =
          some (('\n' :: s) ++ ['\n'], []) := hmid
      rw [stripJsonBlockCore_eq _ _ _ _ _ h1 h2]
      exact hinterior
    | false =>
      have h1 : splitAtFence (pyStripL (wrapFence false s)) =
          some ([], ('\n' :: s) ++ ['\n', bt, bt, bt]) := by
        rw [hw_strip]
        exact splitAtFence_fence _
      have h2 : splitAtFence (dropJsonTag (('\n' :: s) ++ ['\n', bt, bt, bt])) =
          some (('\n' :: s) ++ ['\n'], []) := hmid
      rw [stripJsonBlockCore_eq _ _ _ _ _ h1 h2]
      exact hinterior
  · exact stripJsonBlockCore_nofence s (noFence_pyStripL s hs)

/-- Witness for C5: a fence-free JSON interior gives the same result bare and
wrapped. -/
theorem c5_witness :
    stripJsonBlockCore (wrapFence true "\x7b\"a\": 1\x7d".data) = pyStripL "\x7b\"a\": 1\x7d".data ∧
    stripJsonBlockCore "\x7b\"a\": 1\x7d".data = pyStripL "\x7b\"a\": 1\x7d".data :=
  c5_strip_wrapping "\x7b\"a\": 1\x7d".data true (by decide)

/-! ### Lemmas about the merge stage for C6 -/

/-- `appendCont` never empties a list. -/
theorem appendCont_ne_nil (s : List Char) (m : List (List Char)) (h : m ≠ []) :
    appendCont s m ≠ [] := by
  cases m with
  | nil => exact absurd rfl h
  | cons x xs =>
    cases xs with
    | nil => simp [appendCont]
    | cons y ys => simp [appendCont]

/-- `appendCont` preserves the number of lines. -/
theorem appendCont_length (s : List Char) : ∀ m : List (List Char),
    (appendCont s m).length = m.length
  | [] => rfl
  | [_] => rfl
  | x :: y :: ys => by
    show (x :: appendCont s (y :: ys)).length = (x :: y :: ys).length
    simp [appendCont_length s (y :: ys)]

/-- One merge step never yields an empty accumulator. -/
theorem mergeStep_ne_nil (acc : List (List Char)) (l : List Char) : mergeStep acc l ≠ [] := by
  unfold mergeStep
  split
  · rename_i hcond
    have hacc : acc ≠ [] := by
      intro he
      rw [he] at hcond
      simp at hcond
    exact appendCont_ne_nil _ _ hacc
  · simp

/-- Folding merge steps never yields an empty accumulator. -/
theorem foldl_mergeStep_ne_nil (ls : List (List Char)) :
    ∀ acc : List (List Char), acc ≠ [] → List.foldl mergeStep acc ls ≠ [] := by
  induction ls with
  | nil => intro acc h; exact h
  | cons l ls ih =>
    intro acc _
    exact ih (mergeStep acc l) (mergeStep_ne_nil acc l)

/-- The merge of a non-empty line list is non-empty. -/
theorem mergeLines_ne_nil (ls : List (List Char)) (h : ls ≠ []) : mergeLines ls ≠ [] := by
  cases ls with
  | nil => exact absurd rfl h
  | cons l ls2 =>
    show List.foldl mergeStep (mergeStep [] l) ls2 ≠ []
    exact foldl_mergeStep_ne_nil ls2 _ (mergeStep_ne_nil [] l)

/-- A merge step on a continuation line with a non-empty accumulator appends
the stripped content to the last accumulated line. -/
theorem mergeStep_cont (acc : List (List Char)) (l : List Char) (hl : isContLine l = true)
    (hacc : acc ≠ []) : mergeStep acc l = appendCont (pyStripL l) acc := by
  unfold mergeStep
  rw [hl, List.isEmpty_eq_false.mpr hacc]
  rfl

/-- C6: in the merge stage of `normalize_for_llm`, a line whose stripped form
ends with the table delimiter but does not start with it, and which has at
least one prior line, has its stripped content appended to the last
accumulated line, joined by a single space (`appendCont`), rather than being
kept as a separate line: the number of accumulated lines does not grow, and
the scan then continues from that accumulator. -/
theorem c6_merge_continuation (ls ls2 : List (List Char)) (l : List Char)
    (hls : ls ≠ []) (hl : isContLine l = true) :
    mergeLines (ls ++ l :: ls2) =
      List.foldl mergeStep (appendCont (pyStripL l) (mergeLines ls)) ls2 ∧
    (appendCont (pyStripL l) (mergeLines ls)).length = (mergeLines ls).length := by
  constructor
  · have hfold : mergeLines (ls ++ l :: ls2) =
        List.foldl mergeStep (mergeStep (mergeLines ls) l) ls2 := by
      unfold mergeLines
      rw [List.foldl_append]
      rfl
    rw [hfold, mergeStep_cont (mergeLines ls) l hl (mergeLines_ne_nil ls hls)]
  · exact appendCont_length _ _

/-- Witness for C6: the continuation line `"b |"` is merged into the prior
line `"| a |"` and the line count stays 1. -/
theorem c6_witness :
    mergeLines (["| a |".data] ++ "b |".data :: []) =
      List.foldl mergeStep (appendCont (pyStripL "b |".data) (mergeLines ["| a |".data])) [] ∧
    (appendCont (pyStripL "b |".data) (mergeLines ["| a |".data])).length =
      (mergeLines ["| a |".data]).length :=
  c6_merge_continuation ["| a |".data] [] "b |".data (by simp) (by decide)

/-! ### Lemmas about the currency rewriting for C3 -/

/-- An amount lexeme as matched by `(\d+(?:[.,]\d+)?)`: digits with an
optional decimal part. -/
def amountOk (ds : List Char) : Bool :=
  (!ds.isEmpty && ds.all isDigitChar) ||
  (match ds.dropWhile isDigitChar with
   | p :: fs =>
       !(ds.takeWhile isDigitChar).isEmpty && (p = '.' || p = ',') &&
       !fs.isEmpty && fs.all isDigitChar
   | [] => false)

/-- Unfolding equation of `euroSubAux` on a cons. -/
theorem euroSubAux_cons (absorb prevD : Bool) (pend : List Char) (c : Char) (rest : List Char) :
    euroSubAux absorb prevD pend (c :: rest) =
      if absorb then
        if pyWs c then euroSubAux true false [] rest
        else c :: euroSubAux false (isDigitChar c) [] rest
      else
        if c = euroChar then
          if prevD then eurSp ++ euroSubAux true false [] rest
          else pend ++ c :: euroSubAux false false [] rest
        else if pyWs c then euroSubAux false prevD (pend ++ [c]) rest
        else pend ++ c :: euroSubAux false (isDigitChar c) [] rest := rfl

/-- Amount characters are neither whitespace nor the euro sign. -/
theorem amount_char_not_ws (c : Char) (h : isDigitChar c = true ∨ c = '.' ∨ c = ',') :
    pyWs c = false ∧ c ≠ euroChar := by
  rcases h with h | h | h
  · constructor
    · simp only [isDigitChar, Bool.and_eq_true, decide_eq_true_eq] at h
      simp only [pyWs, Bool.or_eq_false_iff, Bool.and_eq_false_iff, decide_eq_false_iff_not]
      omega
    · intro he
      rw [he] at h
      exact absurd h (by decide)
  · rw [h]; exact ⟨by decide, by decide⟩
  · rw [h]; exact ⟨by decide, by decide⟩

/-- An element of the last position is a member. -/
theorem getLast?_mem_list (l : List Char) (c : Char) (h : l.getLast? = some c) : c ∈ l := by
  obtain ⟨hne, hc⟩ := List.mem_getLast?_eq_getLast (Option.mem_def.mpr h)
  rw [hc]
  exact List.getLast_mem hne

/-- Structure of an accepted amount lexeme. -/
theorem amountOk_facts (ds : List Char) (h : amountOk ds = true) :
    ds ≠ [] ∧ (∀ c ∈ ds, isDigitChar c = true ∨ c = '.' ∨ c = ',') ∧
    (∀ c, ds.getLast? = some c → isDigitChar c = true) := by
  unfold amountOk at h
  rw [Bool.or_eq_true] at h
  rcases h with h | h
  · rw [Bool.and_eq_true, Bool.not_eq_true', List.isEmpty_eq_false, List.all_eq_true] at h
    refine ⟨h.1, fun c hc => Or.inl (h.2 c hc), fun c hc => h.2 c (getLast?_mem_list ds c hc)⟩
  · cases hdrop : ds.dropWhile isDigitChar with
    | nil => rw [hdrop] at h; exact absurd h (by simp)
    | cons p fs =>
      rw [hdrop] at h
      rw [Bool.and_eq_true, Bool.and_eq_true, Bool.and_eq_true, Bool.not_eq_true',
        List.isEmpty_eq_false, Bool.not_eq_true', List.isEmpty_eq_false,
        List.all_eq_true] at h
      obtain ⟨⟨⟨hip, hsep⟩, hfs_ne⟩, hfs⟩ := h
      have hds : ds = ds.takeWhile isDigitChar ++ (p :: fs) := by
        rw [← hdrop]
        exact (List.takeWhile_append_dropWhile isDigitChar ds).symm
      have hsep2 : p = '.' ∨ p = ',' := by
        rw [Bool.or_eq_true, decide_eq_true_eq, decide_eq_true_eq] at hsep
        exact hsep
      refine ⟨?_, ?_, ?_⟩
      · rw [hds]
        intro hcon
        exact absurd (List.append_eq_nil.mp hcon).2 (List.cons_ne_nil p fs)
      · intro c hc
        rw [hds] at hc
        rcases List.mem_append.mp hc with hc | hc
        · exact Or.inl (List.mem_takeWhile_imp hc)
        · rcases List.mem_cons.mp hc with hc | hc
          · rw [hc]
            rcases hsep2 with hp | hp
            · exact Or.inr (Or.inl hp)
            · exact Or.inr (Or.inr hp)
          · exact Or.inl (hfs c hc)
      · intro c hc
        rw [hds, List.getLast?_append_cons] at hc
        cases fs with
        | nil => exact absurd rfl hfs_ne
        | cons f fs2 =>
          rw [List.getLast?_cons_cons] at hc
          exact hfs c (getLast?_mem_list _ c hc)

/-- After the euro sign, the trailing whitespace run is consumed and scanning
resumes as a fresh scan of the remainder. -/
theorem euroSubAux_absorb (v : List Char) (hv : ∀ c, v.head? = some c → pyWs c = false) :
    ∀ ws : List Char, (∀ c ∈ ws, pyWs c = true) →
      euroSubAux true false [] (ws ++ v) = euroSub v
  | [], _ => by
    cases v with
    | nil => rfl
    | cons c rest =>
      have hc : pyWs c = false := hv c rfl
      show euroSubAux true false [] (c :: rest) = euroSubAux false false [] (c :: rest)
      by_cases he : c = euroChar
      · subst he
        rfl
      · simp [euroSubAux_cons, hc, he]
  | w :: ws, hws => by
    have hw : pyWs w = true := hws w (List.mem_cons_self w ws)
    rw [List.cons_append, euroSubAux_cons, if_pos rfl, if_pos hw]
    exact euroSubAux_absorb v hv ws (fun c hc => hws c (List.mem_cons_of_mem w hc))

/-- Scanning an amount lexeme directly followed by the euro sign (then a
whitespace run, then text that does not begin with whitespace) emits the
pending whitespace, the amount verbatim, then `" EUR "`, and continues as a
fresh scan of the remainder. -/
theorem euroSubAux_amount (ws v : List Char) (hws : ∀ c ∈ ws, pyWs c = true)
    (hv : ∀ c, v.head? = some c → pyWs c = false) :
    ∀ (ds : List Char) (prevD : Bool) (pend : List Char), ds ≠ [] →
      (∀ c ∈ ds, isDigitChar c = true ∨ c = '.' ∨ c = ',') →
      (∀ c, ds.getLast? = some c → isDigitChar c = true) →
      euroSubAux false prevD pend (ds ++ (euroChar :: (ws ++ v))) =
        pend ++ (ds ++ (eurSp ++ euroSub v))
  | [], _, _, hne, _, _ => absurd rfl hne
  | [d], prevD, pend, _, _, hlast => by
    have hd : isDigitChar d = true := hlast d rfl
    obtain ⟨hd_ws, hd_eu⟩ := amount_char_not_ws d (Or.inl hd)
    show euroSubAux false prevD pend (d :: (euroChar :: (ws ++ v))) = _
    rw [euroSubAux_cons, if_neg (show ¬(false = true) by decide), if_neg hd_eu,
      if_neg (show ¬(pyWs d = true) by rw [hd_ws]; exact Bool.false_ne_true), hd]
    rw [euroSubAux_cons, if_neg (show ¬(false = true) by decide), if_pos rfl, if_pos rfl]
    rw [euroSubAux_absorb v hv ws hws]
    simp
  | d :: d2 :: ds, prevD, pend, _, hall, hlast => by
    have hd : isDigitChar d = true ∨ d = '.' ∨ d = ',' := hall d (List.mem_cons_self _ _)
    obtain ⟨hd_ws, hd_eu⟩ := amount_char_not_ws d hd
    show euroSubAux false prevD pend (d :: ((d2 :: ds) ++ (euroChar :: (ws ++ v)))) = _
    rw [euroSubAux_cons, if_neg (show ¬(false = true) by decide), if_neg hd_eu,
      if_neg (show ¬(pyWs d = true) by rw [hd_ws]; exact Bool.false_ne_true)]
    rw [euroSubAux_amount ws v hws hv (d2 :: ds) (isDigitChar d) [] (List.cons_ne_nil d2 ds)
      (fun c hc => hall c (List.mem_cons_of_mem d hc))
      (fun c hc => hlast c (by rw [List.getLast?_cons_cons]; exact hc))]
    simp

/-- Scanning a euro-free prefix emits it verbatim around any tail whose
processing is insensitive to the incoming scanner state. -/
theorem euroSubAux_prefix (tail res : List Char)
    (htail : ∀ (prevD : Bool) (pend : List Char), euroSubAux false prevD pend tail = pend ++ res) :
    ∀ (u : List Char) (prevD : Bool) (pend : List Char), euroChar ∉ u →
      euroSubAux false prevD pend (u ++ tail) = pend ++ (u ++ res)
  | [], prevD, pend, _ => by rw [List.nil_append, List.nil_append, htail]
  | c :: u, prevD, pend, hu => by
    have hc_ne : c ≠ euroChar := fun he => hu (he ▸ List.mem_cons_self c u)
    have hu2 : euroChar ∉ u := fun hm => hu (List.mem_cons_of_mem c hm)
    rw [List.cons_append, euroSubAux_cons, if_neg (show ¬(false = true) by decide),
      if_neg hc_ne]
    by_cases hw : pyWs c = true
    · rw [if_pos hw, euroSubAux_prefix tail res htail u prevD (pend ++ [c]) hu2]
      simp
    · rw [if_neg hw, euroSubAux_prefix tail res htail u (isDigitChar c) [] hu2]
      simp

/-- C3 (amended): in the currency-canonicalization step of
`normalize_for_llm`, every occurrence of an amount (digits with an optional
decimal part) immediately followed by the euro sign and then a whitespace run
is rewritten to the amount, a space, the upper-case code and a trailing space
(`" EUR "`), with the amount - decimal part included - preserved verbatim and
the following whitespace consumed; the surrounding text is processed
independently. -/
theorem c3_euro_rewrite (u ds ws v : List Char)
    (hu : euroChar ∉ u) (hds : amountOk ds = true)
    (hws : ∀ c ∈ ws, pyWs c = true)
    (hv : ∀ c, v.head? = some c → pyWs c = false) :
    euroSub (u ++ (ds ++ (euroChar :: (ws ++ v)))) = u ++ (ds ++ (eurSp ++ euroSub v)) := by
  obtain ⟨hne, hall, hlast⟩ := amountOk_facts ds hds
  have htail := fun (prevD : Bool) (pend : List Char) =>
    euroSubAux_amount ws v hws hv ds prevD pend hne hall hlast
  have := euroSubAux_prefix (ds ++ (euroChar :: (ws ++ v))) (ds ++ (eurSp ++ euroSub v))
    htail u false [] hu
  rw [List.nil_append] at this
  exact this

/-- Witness for C3: `"Price: 15.5€ x"` has its amount rewritten to
`"15.5 EUR "` with the decimal part intact. -/
theorem c3_witness :
    euroSub ("Price: ".data ++ ("15.5".data ++ (euroChar :: ([' '] ++ "x".data)))) =
      "Price: ".data ++ ("15.5".data ++ (eurSp ++ euroSub "x".data)) :=
  c3_euro_rewrite "Price: ".data "15.5".data [' '] "x".data (by decide) (by decide)
    (by decide) (by decide)

/-! ### Lemmas about the marker-repair step for C7 -/

/-- The three marker rules of step 2 of `normalize_for_llm`, in source order. -/
def fixReplacement (l : List Char) : List Char := sub2c (sub2b (sub2a l))

/-- Unfolding equation of `sub2aAux` on a cons. -/
theorem sub2aAux_cons (tent prevW : Bool) (pend pend2 : List Char) (c : Char) (rest : List Char) :
    sub2aAux tent prevW pend pend2 (c :: rest) =
      if tent then
        if pyWs c then sub2aAux true prevW pend (pend2 ++ [c]) rest
        else if isWordChar c then ' ' :: emDash :: ' ' :: c :: sub2aAux false false [] [] rest
        else pend ++ repChar :: pend2 ++ c :: sub2aAux false false [] [] rest
      else
        if c = repChar then
          if prevW then sub2aAux true false pend [] rest
          else pend ++ c :: sub2aAux false false [] [] rest
        else if pyWs c then sub2aAux false prevW (pend ++ [c]) [] rest
        else pend ++ c :: sub2aAux false (isWordChar c) [] [] rest := rfl

/-- Unfolding equation of `sub2bAux` on a cons. -/
theorem sub2bAux_cons (absorb prevD : Bool) (pend : List Char) (c : Char) (rest : List Char) :
    sub2bAux absorb prevD pend (c :: rest) =
      if absorb then
        if pyWs c then sub2bAux true false [] rest
        else c :: sub2bAux false (isDigitChar c) [] rest
      else
        if c = repChar then
          if prevD then euroChar :: ' ' :: sub2bAux true false [] rest
          else pend ++ c :: sub2bAux false false [] rest
        else if pyWs c then sub2bAux false prevD (pend ++ [c]) rest
        else pend ++ c :: sub2bAux false (isDigitChar c) [] rest := rfl

/-- Unfolding equation of `sub2cAux` on a cons. -/
theorem sub2cAux_cons (absorb : Bool) (pend : List Char) (c : Char) (rest : List Char) :
    sub2cAux absorb pend (c :: rest) =
      if absorb then
        if pyWs c then sub2cAux true [] rest
        else if c = repChar then ' ' :: emDash :: ' ' :: sub2cAux true [] rest
        else c :: sub2cAux false [] rest
      else
        if c = repChar then ' ' :: emDash :: ' ' :: sub2cAux true [] rest
        else if pyWs c then sub2cAux false (pend ++ [c]) rest
        else pend ++ c :: sub2cAux false [] rest := rfl

/-- A word character is not whitespace. -/
theorem word_not_ws (c : Char) (h : isWordChar c = true) : pyWs c = false := by
  simp only [isWordChar, Bool.or_eq_true, Bool.and_eq_true, decide_eq_true_eq] at h
  simp only [pyWs, Bool.or_eq_false_iff, Bool.and_eq_false_iff, decide_eq_false_iff_not]
  omega

/-- A word character is not the replacement marker. -/
theorem word_ne_repChar (c : Char) (h : isWordChar c = true) : c ≠ repChar := by
  intro he
  rw [he] at h
  exact absurd h (by decide)

/-- On marker-free input, the word-marker-word substitution from a non-tentative
state emits the pending whitespace and the input verbatim. -/
theorem sub2aAux_no_marker : ∀ (l : List Char) (prevW : Bool) (pend : List Char),
    repChar ∉ l → sub2aAux false prevW pend [] l = pend ++ l
  | [], _, pend, _ => by simp [sub2aAux]
  | c :: rest, prevW, pend, hl => by
    have hc : c ≠ repChar := fun he => hl (he ▸ List.mem_cons_self c rest)
    have hrest : repChar ∉ rest := fun hm => hl (List.mem_cons_of_mem c hm)
    rw [sub2aAux_cons, if_neg (show ¬(false = true) by decide), if_neg hc]
    by_cases hw : pyWs c = true
    · rw [if_pos hw, sub2aAux_no_marker rest prevW (pend ++ [c]) hrest]
      simp
    · rw [if_neg hw, sub2aAux_no_marker rest (isWordChar c) [] hrest]
      simp

/-- On marker-free input, the word-marker-word substitution is the identity. -/
theorem sub2a_no_marker (l : List Char) (h : repChar ∉ l) : sub2a l = l :=
  sub2aAux_no_marker l false [] h

/-- On marker-free input, the digit-marker substitution from a non-absorbing
state emits the pending whitespace and the input verbatim. -/
theorem sub2bAux_no_marker : ∀ (l : List Char) (prevD : Bool) (pend : List Char),
    repChar ∉ l → sub2bAux false prevD pend l = pend ++ l
  | [], _, pend, _ => by simp [sub2bAux]
  | c :: rest, prevD, pend, hl => by
    have hc : c ≠ repChar := fun he => hl (he ▸ List.mem_cons_self c rest)
    have hrest : repChar ∉ rest := fun hm => hl (List.mem_cons_of_mem c hm)
    rw [sub2bAux_cons, if_neg (show ¬(false = true) by decide), if_neg hc]
    by_cases hw : pyWs c = true
    · rw [if_pos hw, sub2bAux_no_marker rest prevD (pend ++ [c]) hrest]
      simp
    · rw [if_neg hw, sub2bAux_no_marker rest (isDigitChar c) [] hrest]
      simp

/-- On marker-free input, the digit-marker substitution is the identity. -/
theorem sub2b_no_marker (l : List Char) (h : repChar ∉ l) : sub2b l = l :=
  sub2bAux_no_marker l false [] h

/-- On marker-free input, the fallback substitution from a non-absorbing state
emits the pending whitespace and the input verbatim. -/
theorem sub2cAux_no_marker : ∀ (l : List Char) (pend : List Char),
    repChar ∉ l → sub2cAux false pend l = pend ++ l
  | [], pend, _ => by simp [sub2cAux]
  | c :: rest, pend, hl => by
    have hc : c ≠ repChar := fun he => hl (he ▸ List.mem_cons_self c rest)
    have hrest : repChar ∉ rest := fun hm => hl (List.mem_cons_of_mem c hm)
    rw [sub2cAux_cons, if_neg (show ¬(false = true) by decide), if_neg hc]
    by_cases hw : pyWs c = true
    · rw [if_pos hw, sub2cAux_no_marker rest (pend ++ [c]) hrest]
      simp
    · rw [if_neg hw, sub2cAux_no_marker rest [] hrest]
      simp

/-- On marker-free input, the fallback substitution is the identity. -/
theorem sub2c_no_marker (l : List Char) (h : repChar ∉ l) : sub2c l = l :=
  sub2cAux_no_marker l [] h

/-- In the tentative state, a whitespace run followed by a closing word
character completes the match: the replacement is emitted, the buffered
whitespace dropped, and scanning restarts fresh. -/
theorem sub2aAux_tent (v : List Char) (w2 : Char) (hw2 : isWordChar w2 = true) :
    ∀ (ws2 : List Char) (pend pend2 : List Char), (∀ c ∈ ws2, pyWs c = true) →
      sub2aAux true false pend pend2 (ws2 ++ (w2 :: v)) =
        ' ' :: emDash :: ' ' :: w2 :: sub2a v
  | [], pend, pend2, _ => by
    rw [List.nil_append, sub2aAux_cons, if_pos rfl,
      if_neg (show ¬(pyWs w2 = true) by rw [word_not_ws w2 hw2]; exact Bool.false_ne_true),
      if_pos hw2]
    rfl
  | w :: ws2, pend, pend2, hws => by
    have hw : pyWs w = true := hws w (List.mem_cons_self w ws2)
    rw [List.cons_append, sub2aAux_cons, if_pos rfl, if_pos hw]
    exact sub2aAux_tent v w2 hw2 ws2 pend (pend2 ++ [w])
      (fun c hc => hws c (List.mem_cons_of_mem w hc))

/-- With the previous character a word character, a whitespace run followed by
the marker enters the tentative state; if a word character follows the
marker's whitespace run, the whole span becomes an em dash with single
spaces. -/
theorem sub2aAux_ws_marker (ws2 v : List Char) (w2 : Char) (hw2 : isWordChar w2 = true)
    (hws2 : ∀ c ∈ ws2, pyWs c = true) :
    ∀ (ws1 : List Char) (pend : List Char), (∀ c ∈ ws1, pyWs c = true) →
      sub2aAux false true pend [] (ws1 ++ (repChar :: (ws2 ++ (w2 :: v)))) =
        ' ' :: emDash :: ' ' :: w2 :: sub2a v
  | [], pend, _ => by
    rw [List.nil_append, sub2aAux_cons, if_neg (show ¬(false = true) by decide),
      if_pos rfl, if_pos rfl]
    exact sub2aAux_tent v w2 hw2 ws2 pend [] hws2
  | w :: ws1, pend, hws => by
    have hw : pyWs w = true := hws w (List.mem_cons_self w ws1)
    have hwne : w ≠ repChar := by
      intro he
      rw [he] at hw
      exact absurd hw (by decide)
    rw [List.cons_append, sub2aAux_cons, if_neg (show ¬(false = true) by decide),
      if_neg hwne, if_pos hw]
    exact sub2aAux_ws_marker ws2 v w2 hw2 hws2 ws1 (pend ++ [w])
      (fun c hc => hws c (List.mem_cons_of_mem w hc))

/-- Scanning a marker-free prefix with the word-marker-word rule emits it
verbatim around any tail whose processing is insensitive to the incoming
state. -/
theorem sub2aAux_prefix (tail res : List Char)
    (htail : ∀ (prevW : Bool) (pend : List Char),
      sub2aAux false prevW pend [] tail = pend ++ res) :
    ∀ (u : List Char) (prevW : Bool) (pend : List Char), repChar ∉ u →
      sub2aAux false prevW pend [] (u ++ tail) = pend ++ (u ++ res)
  | [], prevW, pend, _ => by rw [List.nil_append, List.nil_append, htail]
  | c :: u, prevW, pend, hu => by
    have hc : c ≠ repChar := fun he => hu (he ▸ List.mem_cons_self c u)
    have hu2 : repChar ∉ u := fun hm => hu (List.mem_cons_of_mem c hm)
    rw [List.cons_append, sub2aAux_cons, if_neg (show ¬(false = true) by decide), if_neg hc]
    by_cases hw : pyWs c = true
    · rw [if_pos hw, sub2aAux_prefix tail res htail u prevW (pend ++ [c]) hu2]
      simp
    · rw [if_neg hw, sub2aAux_prefix tail res htail u (isWordChar c) [] hu2]
      simp

/-- C7 (amended): on an input whose single marker occurrence lies between two
word characters (with optional whitespace on both sides of the marker), the
marker-repair step of `normalize_for_llm` replaces the whole span by an em
dash flanked by single spaces; because the word-pair rule runs first, this
holds even when the flanking word characters are digits, so the word-pair
rule takes priority over the digit-adjacency and fallback rules. -/
theorem c7_single_marker (u ws1 ws2 v : List Char) (w1 w2 : Char)
    (hu : repChar ∉ u) (hv : repChar ∉ v)
    (hw1 : isWordChar w1 = true) (hw2 : isWordChar w2 = true)
    (hws1 : ∀ c ∈ ws1, pyWs c = true) (hws2 : ∀ c ∈ ws2, pyWs c = true) :
    fixReplacement (u ++ (w1 :: (ws1 ++ (repChar :: (ws2 ++ (w2 :: v)))))) =
      u ++ (w1 :: ' ' :: emDash :: ' ' :: w2 :: v) := by
  have htail : ∀ (prevW : Bool) (pend : List Char),
      sub2aAux false prevW pend [] (w1 :: (ws1 ++ (repChar :: (ws2 ++ (w2 :: v))))) =
        pend ++ (w1 :: ' ' :: emDash :: ' ' :: w2 :: v) := by
    intro prevW pend
    rw [sub2aAux_cons, if_neg (show ¬(false = true) by decide),
      if_neg (word_ne_repChar w1 hw1),
      if_neg (show ¬(pyWs w1 = true) by rw [word_not_ws w1 hw1]; exact Bool.false_ne_true),
      hw1]
    rw [sub2aAux_ws_marker ws2 v w2 hw2 hws2 ws1 [] hws1]
    rw [sub2a_no_marker v hv]
  have ha : sub2a (u ++ (w1 :: (ws1 ++ (repChar :: (ws2 ++ (w2 :: v)))))) =
      u ++ (w1 :: ' ' :: emDash :: ' ' :: w2 :: v) := by
    have := sub2aAux_prefix _ _ htail u false [] hu
    rw [List.nil_append] at this
    exact this
  have hm : repChar ∉ u ++ (w1 :: ' ' :: emDash :: ' ' :: w2 :: v) := by
    intro hmem
    rcases List.mem_append.mp hmem with hmem | hmem
    · exact hu hmem
    · rcases List.mem_cons.mp hmem with hmem | hmem
      · exact word_ne_repChar w1 hw1 hmem.symm
      · rcases List.mem_cons.mp hmem with hmem | hmem
        · exact absurd hmem.symm (by decide)
        · rcases List.mem_cons.mp hmem with hmem | hmem
          · exact absurd hmem.symm (by decide)
          · rcases List.mem_cons.mp hmem with hmem | hmem
            · exact absurd hmem.symm (by decide)
            · rcases List.mem_cons.mp hmem with hmem | hmem
              · exact word_ne_repChar w2 hw2 hmem.symm
              · exact hv hmem
  unfold fixReplacement
  rw [ha, sub2b_no_marker _ hm, sub2c_no_marker _ hm]

/-- Witness for C7: in `"x7 �8 y"` the marker sits between the digits `7`
and `8`, and the word-pair rule still wins: the result is `"x7 — 8 y"`, not a
currency rewriting. -/
theorem c7_witness :
    fixReplacement ("x".data ++ ('7' :: ([' '] ++ (repChar :: ([] ++ ('8' :: " y".data)))))) =
      "x".data ++ ('7' :: ' ' :: emDash :: ' ' :: '8' :: " y".data) :=
  c7_single_marker "x".data [' '] [] " y".data '7' '8' (by decide) (by decide)
    (by decide) (by decide) (by decide) (by decide)

/-! ### Lemmas for C1: stage identities on trigger-free text -/

/-- Case-insensitive occurrence of the letter sequence `eur`, the trigger of
the currency-code rule. -/
def hasEur : List Char → Bool
  | c1 :: c2 :: c3 :: rest => (isE c1 && isU c2 && isR c3) || hasEur (c2 :: c3 :: rest)
  | _ => false

/-- Unfolding equation of `subBrAux` in the initial state on a cons. -/
theorem subBrAux_s0_cons (c : Char) (rest : List Char) :
    subBrAux .s0 (c :: rest) =
      if c = '<' then subBrAux .s1 rest else c :: subBrAux .s0 rest := rfl

/-- On input without `<`, the break-marker substitution is the identity. -/
theorem subBr_no_lt : ∀ (l : List Char), '<' ∉ l → subBr l = l
  | [], _ => rfl
  | c :: rest, hl => by
    have hc : c ≠ '<' := fun he => hl (he ▸ List.mem_cons_self c rest)
    have hrest : '<' ∉ rest := fun hm => hl (List.mem_cons_of_mem c hm)
    show subBrAux .s0 (c :: rest) = c :: rest
    rw [subBrAux_s0_cons, if_neg hc]
    rw [show subBrAux BrState.s0 rest = rest from subBr_no_lt rest hrest]

/-- Unfolding equation of `eurUpperAux` on three or more characters. -/
theorem eurUpperAux_cons3 (prevW : Bool) (c1 c2 c3 : Char) (rest : List Char) :
    eurUpperAux prevW (c1 :: c2 :: c3 :: rest) =
      if !prevW && isE c1 && isU c2 && isR c3 && !headWord rest then
        'E' :: 'U' :: 'R' :: eurUpperAux true rest
      else c1 :: eurUpperAux (isWordChar c1) (c2 :: c3 :: rest) := rfl

/-- On input without a case-insensitive `eur`, the currency-code upper-casing
is the identity from any boundary state. -/
theorem eurUpperAux_no_eur : ∀ (l : List Char) (prevW : Bool), hasEur l = false →
    eurUpperAux prevW l = l
  | [], _, _ => rfl
  | [_], _, _ => rfl
  | [_, _], _, _ => rfl
  | c1 :: c2 :: c3 :: rest, prevW, h => by
    rw [show hasEur (c1 :: c2 :: c3 :: rest) =
      ((isE c1 && isU c2 && isR c3) || hasEur (c2 :: c3 :: rest)) from rfl,
      Bool.or_eq_false_iff] at h
    rw [eurUpperAux_cons3, if_neg ?cond]
    case cond =>
      intro hcond
      simp only [Bool.and_eq_true] at hcond
      obtain ⟨⟨⟨⟨_, he⟩, hu2⟩, hr⟩, _⟩ := hcond
      have h1 := h.1
      rw [he, hu2, hr] at h1
      simp at h1
    rw [eurUpperAux_no_eur (c2 :: c3 :: rest) (isWordChar c1) h.2]

/-- On input without a case-insensitive `eur`, the currency-code upper-casing
is the identity. -/
theorem eurUpper_no_eur (l : List Char) (h : hasEur l = false) : eurUpper l = l :=
  eurUpperAux_no_eur l false h

/-- On input without the euro sign, the currency rewriting from a
non-absorbing state emits the pending whitespace and the input verbatim. -/
theorem euroSubAux_no_euro : ∀ (l : List Char) (prevD : Bool) (pend : List Char),
    euroChar ∉ l → euroSubAux false prevD pend l = pend ++ l
  | [], _, pend, _ => by simp [euroSubAux]
  | c :: rest, prevD, pend, hl => by
    have hc : c ≠ euroChar := fun he => hl (he ▸ List.mem_cons_self c rest)
    have hrest : euroChar ∉ rest := fun hm => hl (List.mem_cons_of_mem c hm)
    rw [euroSubAux_cons, if_neg (show ¬(false = true) by decide), if_neg hc]
    by_cases hw : pyWs c = true
    · rw [if_pos hw, euroSubAux_no_euro rest prevD (pend ++ [c]) hrest]
      simp
    · rw [if_neg hw, euroSubAux_no_euro rest (isDigitChar c) [] hrest]
      simp

/-- On input without the euro sign, the currency rewriting is the identity. -/
theorem euroSub_no_euro (l : List Char) (h : euroChar ∉ l) : euroSub l = l :=
  euroSubAux_no_euro l false [] h

/-! ### Lemmas about lines for C1 -/

/-- Unfolding equation of `splitNl` on a newline head. -/
theorem splitNl_cons_nl (rest : List Char) : splitNl ('\n' :: rest) = [] :: splitNl rest := rfl

/-- Unfolding equation of `splitNl` on a cons. -/
theorem splitNl_cons (c : Char) (rest : List Char) :
    splitNl (c :: rest) =
      if c = '\n' then [] :: splitNl rest
      else
        match splitNl rest with
        | l :: ls => (c :: l) :: ls
        | [] => [[c]] := rfl

/-- Splitting never yields an empty line list. -/
theorem splitNl_ne_nil : ∀ l : List Char, splitNl l ≠ []
  | [] => by simp [splitNl]
  | c :: rest => by
    rw [splitNl_cons]
    by_cases hc : c = '\n'
    · rw [if_pos hc]
      simp
    · rw [if_neg hc]
      cases splitNl rest with
      | nil => simp
      | cons l0 ls => simp

/-- Characters of a line come from the split text. -/
theorem splitNl_chars : ∀ (l : List Char) (line : List Char), line ∈ splitNl l →
    ∀ c ∈ line, c ∈ l
  | [], line, hline, c, hc => by
    simp only [splitNl, List.mem_singleton] at hline
    subst hline
    cases hc
  | x :: rest, line, hline, c, hc => by
    by_cases hx : x = '\n'
    · rw [show splitNl (x :: rest) = [] :: splitNl rest by rw [hx, splitNl_cons_nl]] at hline
      rcases List.mem_cons.mp hline with hline | hline
      · subst hline
        cases hc
      · exact List.mem_cons_of_mem x (splitNl_chars rest line hline c hc)
    · cases he : splitNl rest with
      | nil => exact absurd he (splitNl_ne_nil rest)
      | cons l0 ls0 =>
        rw [show splitNl (x :: rest) = (x :: l0) :: ls0 by
          rw [splitNl_cons, if_neg hx, he]] at hline
        rcases List.mem_cons.mp hline with hline | hline
        · subst hline
          rcases List.mem_cons.mp hc with hc | hc
          · rw [hc]
            exact List.mem_cons_self x rest
          · have : c ∈ rest :=
              splitNl_chars rest l0 (he ▸ List.mem_cons_self l0 ls0) c hc
            exact List.mem_cons_of_mem x this
        · have : c ∈ rest :=
            splitNl_chars rest line (he ▸ List.mem_cons_of_mem l0 hline) c hc
          exact List.mem_cons_of_mem x this

/-- Lines contain no newline. -/
theorem splitNl_nl_free : ∀ (l : List Char) (line : List Char), line ∈ splitNl l →
    '\n' ∉ line
  | [], line, hline => by
    simp only [splitNl, List.mem_singleton] at hline
    subst hline
    simp
  | x :: rest, line, hline => by
    by_cases hx : x = '\n'
    · rw [show splitNl (x :: rest) = [] :: splitNl rest by rw [hx, splitNl_cons_nl]] at hline
      rcases List.mem_cons.mp hline with hline | hline
      · subst hline
        simp
      · exact splitNl_nl_free rest line hline
    · cases he : splitNl rest with
      | nil => exact absurd he (splitNl_ne_nil rest)
      | cons l0 ls0 =>
        rw [show splitNl (x :: rest) = (x :: l0) :: ls0 by
          rw [splitNl_cons, if_neg hx, he]] at hline
        rcases List.mem_cons.mp hline with hline | hline
        · subst hline
          intro hmem
          rcases List.mem_cons.mp hmem with hmem | hmem
          · exact hx hmem.symm
          · exact splitNl_nl_free rest l0 (he ▸ List.mem_cons_self l0 ls0) hmem
        · exact splitNl_nl_free rest line (he ▸ List.mem_cons_of_mem l0 hline)

/-- Joining the split lines restores the text. -/
theorem nlJoin_splitNl : ∀ l : List Char, nlJoin (splitNl l) = l
  | [] => rfl
  | c :: rest => by
    by_cases hc : c = '\n'
    · rw [show splitNl (c :: rest) = [] :: splitNl rest by rw [hc, splitNl_cons_nl]]
      cases he : splitNl rest with
      | nil => exact absurd he (splitNl_ne_nil rest)
      | cons l0 ls0 =>
        show [] ++ '\n' :: nlJoin (l0 :: ls0) = c :: rest
        rw [List.nil_append, hc, ← he, nlJoin_splitNl rest]
    · cases he : splitNl rest with
      | nil => exact absurd he (splitNl_ne_nil rest)
      | cons l0 ls0 =>
        rw [show splitNl (c :: rest) = (c :: l0) :: ls0 by
          rw [splitNl_cons, if_neg hc, he]]
        cases ls0 with
        | nil =>
          show c :: l0 = c :: rest
          have := nlJoin_splitNl rest
          rw [he] at this
          rw [show nlJoin [l0] = l0 from rfl] at this
          rw [this]
        | cons l1 ls1 =>
          show (c :: l0) ++ '\n' :: nlJoin (l1 :: ls1) = c :: rest
          have := nlJoin_splitNl rest
          rw [he] at this
          rw [show nlJoin (l0 :: l1 :: ls1) = l0 ++ '\n' :: nlJoin (l1 :: ls1) from rfl] at this
          rw [List.cons_append, this]

/-- A line without the table delimiter is not a continuation line. -/
theorem isContLine_false (line : List Char) (h : '|' ∉ line) : isContLine line = false := by
  unfold isContLine
  cases hlast : (pyStripL line).getLast? with
  | none => simp
  | some c =>
    by_cases hc : c = '|'
    · exfalso
      have hmem : c ∈ pyStripL line := getLast?_mem_list _ c hlast
      have hmem2 : c ∈ line.dropWhile pyWs := by
        unfold pyStripL rstripL at hmem
        rw [List.mem_reverse] at hmem
        have := (List.dropWhile_sublist (l := (line.dropWhile pyWs).reverse) (p := pyWs)).mem hmem
        rw [List.mem_reverse] at this
        exact this
      have : c ∈ line := (List.dropWhile_sublist (l := line) (p := pyWs)).mem hmem2
      rw [hc] at this
      exact h this
    · simp [hlast, hc]

/-- With no table delimiter anywhere, each merge step just appends its line. -/
theorem mergeStep_no_bar (acc : List (List Char)) (line : List Char) (h : '|' ∉ line) :
    mergeStep acc line = acc ++ [line] := by
  unfold mergeStep
  rw [isContLine_false line h]
  rfl

/-- With no table delimiter anywhere, the merge loop appends all lines. -/
theorem mergeLines_no_bar : ∀ (ls : List (List Char)) (acc : List (List Char)),
    (∀ line ∈ ls, '|' ∉ line) → List.foldl mergeStep acc ls = acc ++ ls
  | [], acc, _ => by simp
  | line :: ls, acc, h => by
    rw [List.foldl_cons, mergeStep_no_bar acc line (h line (List.mem_cons_self line ls)),
      mergeLines_no_bar ls (acc ++ [line]) (fun l hl => h l (List.mem_cons_of_mem line hl))]
    simp

/-- With no table delimiter anywhere, merging is the identity. -/
theorem mergeLines_id (ls : List (List Char)) (h : ∀ line ∈ ls, '|' ∉ line) :
    mergeLines ls = ls := by
  unfold mergeLines
  rw [mergeLines_no_bar ls [] h]
  simp

/-- The whitespace-normalization stage alone (steps 4 and 5 with no merging). -/
def wsCore (l : List Char) : List Char := wsFinish (splitNl l)

/-- On trigger-free input, `normalizeCore` reduces to the whitespace stage. -/
theorem normalizeCore_clean (s : List Char) (h1 : '<' ∉ s) (h2 : repChar ∉ s)
    (h3 : euroChar ∉ s) (h4 : '|' ∉ s) (h5 : hasEur s = false) :
    normalizeCore s = wsCore s := by
  unfold normalizeCore
  rw [subBr_no_lt s h1, sub2a_no_marker s h2, sub2b_no_marker s h2, sub2c_no_marker s h2,
    eurUpper_no_eur s h5, euroSub_no_euro s h3,
    mergeLines_id (splitNl s) (fun line hline hmem => h4 (splitNl_chars s line hline '|' hmem))]
  rfl

/-! ### Preservation of eur-freedom through the whitespace stage (C1) -/

/-- Unfolding equation of `hasEur` on three or more characters. -/
theorem hasEur_cons3 (c1 c2 c3 : Char) (rest : List Char) :
    hasEur (c1 :: c2 :: c3 :: rest) =
      ((isE c1 && isU c2 && isR c3) || hasEur (c2 :: c3 :: rest)) := rfl

/-- Short lists contain no occurrence. -/
theorem hasEur_nil : hasEur [] = false := rfl

/-- Short lists contain no occurrence. -/
theorem hasEur_one (c : Char) : hasEur [c] = false := rfl

/-- Short lists contain no occurrence. -/
theorem hasEur_two (c d : Char) : hasEur [c, d] = false := rfl

/-- Adding a head to a matching list keeps the match. -/
theorem hasEur_cons_of (c : Char) (l : List Char) (h : hasEur l = true) :
    hasEur (c :: l) = true := by
  match l with
  | [] => exact absurd h (by rw [hasEur_nil]; exact Bool.false_ne_true)
  | [_] => exact absurd h (by rw [hasEur_one]; exact Bool.false_ne_true)
  | x :: y :: rest => rw [hasEur_cons3, h, Bool.or_true]

/-- A head that cannot open a window contributes nothing. -/
theorem hasEur_cons_notE (c : Char) (l : List Char) (h : isE c = false) :
    hasEur (c :: l) = hasEur l := by
  match l with
  | [] => rfl
  | [_] => rfl
  | x :: y :: rest =>
    rw [hasEur_cons3, h, Bool.false_and, Bool.false_and, Bool.false_or]

/-- Appending on the right keeps a match. -/
theorem hasEur_mono_right (b : List Char) : ∀ a : List Char, hasEur a = true →
    hasEur (a ++ b) = true
  | [], h => absurd h (by rw [hasEur_nil]; exact Bool.false_ne_true)
  | [_], h => absurd h (by rw [hasEur_one]; exact Bool.false_ne_true)
  | [_, _], h => absurd h (by rw [hasEur_two]; exact Bool.false_ne_true)
  | x :: y :: z :: rest, h => by
    rw [hasEur_cons3, Bool.or_eq_true] at h
    show hasEur (x :: y :: z :: (rest ++ b)) = true
    rw [hasEur_cons3, Bool.or_eq_true]
    rcases h with h | h
    · exact Or.inl h
    · exact Or.inr (hasEur_mono_right b (y :: z :: rest) h)

/-- Appending on the left keeps a match. -/
theorem hasEur_mono_left (a b : List Char) (h : hasEur b = true) :
    hasEur (a ++ b) = true := by
  induction a with
  | nil => exact h
  | cons c a ih => exact hasEur_cons_of c _ ih

/-- A run of newlines before a text adds no occurrence. -/
theorem hasEur_nl_prefix : ∀ (n : Nat) (X : List Char),
    hasEur (List.replicate n '\n' ++ X) = hasEur X
  | 0, _ => rfl
  | n + 1, X => by
    rw [List.replicate_succ, List.cons_append, hasEur_cons_notE '\n' _ (by decide),
      hasEur_nl_prefix n X]

/-- A pure newline run has no occurrence. -/
theorem hasEur_replicate_nl : ∀ n : Nat, hasEur (List.replicate n '\n') = false
  | 0 => rfl
  | n + 1 => by
    rw [List.replicate_succ, hasEur_cons_notE '\n' _ (by decide), hasEur_replicate_nl n]

/-- A newline separator splits the occurrence test. -/
theorem hasEur_append_sep : ∀ (a b : List Char),
    hasEur (a ++ '\n' :: b) = (hasEur a || hasEur b)
  | [], b => by
    rw [List.nil_append, hasEur_cons_notE '\n' b (by decide), hasEur_nil, Bool.false_or]
  | [x], b => by
    show hasEur (x :: '\n' :: b) = _
    cases b with
    | nil => rw [hasEur_two, hasEur_one, hasEur_nil, Bool.false_or]
    | cons b0 b1 =>
      rw [hasEur_cons3, show isU '\n' = false from by decide, Bool.and_false, Bool.false_and,
        Bool.false_or, hasEur_cons_notE '\n' _ (by decide), hasEur_one, Bool.false_or]
  | x :: y :: rest, b => by
    cases rest with
    | nil =>
      show hasEur (x :: y :: '\n' :: b) = _
      have h2 := hasEur_append_sep [y] b
      rw [show (([y] : List Char) ++ '\n' :: b) = y :: '\n' :: b from rfl, hasEur_one,
        Bool.false_or] at h2
      rw [hasEur_cons3, show isR '\n' = false from by decide, Bool.and_false, Bool.false_or,
        h2, hasEur_two, Bool.false_or]
    | cons z rest2 =>
      show hasEur (x :: y :: z :: (rest2 ++ '\n' :: b)) = _
      have h2 := hasEur_append_sep (y :: z :: rest2) b
      rw [show ((y :: z :: rest2) ++ '\n' :: b) = y :: z :: (rest2 ++ '\n' :: b) from rfl] at h2
      rw [hasEur_cons3, h2, hasEur_cons3 x y z rest2, Bool.or_assoc]

/-- Joining lines with newlines: an occurrence lives in one of the lines. -/
theorem hasEur_nlJoin : ∀ lines : List (List Char),
    hasEur (nlJoin lines) = lines.any hasEur
  | [] => rfl
  | [l] => by
    show hasEur l = List.any [l] hasEur
    rw [List.any_cons, List.any_nil, Bool.or_false]
  | l :: l2 :: ls => by
    show hasEur (l ++ '\n' :: nlJoin (l2 :: ls)) = _
    rw [hasEur_append_sep, hasEur_nlJoin (l2 :: ls)]
    simp [List.any_cons]

/-- An occurrence in a text lives in one of its lines. -/
theorem hasEur_splitNl (l : List Char) : hasEur l = (splitNl l).any hasEur := by
  conv_lhs => rw [← nlJoin_splitNl l]
  exact hasEur_nlJoin (splitNl l)

/-- The right-stripped line is a prefix of the line. -/
theorem rstripL_prefix (l : List Char) : ∃ t, l = rstripL l ++ t := by
  refine ⟨(l.reverse.takeWhile pyWs).reverse, ?_⟩
  unfold rstripL
  conv_lhs => rw [← List.reverse_reverse l,
    ← List.takeWhile_append_dropWhile (p := pyWs) (l := l.reverse), List.reverse_append]

/-- An occurrence in a right-stripped line is one in the line. -/
theorem hasEur_rstripL (l : List Char) (h : hasEur (rstripL l) = true) : hasEur l = true := by
  obtain ⟨t, ht⟩ := rstripL_prefix l
  rw [ht]
  exact hasEur_mono_right t _ h

/-- Unfolding equation of `collapseNlAux` on a cons. -/
theorem collapseNlAux_cons (k : Nat) (c : Char) (rest : List Char) :
    collapseNlAux k (c :: rest) =
      if c = '\n' then collapseNlAux (k + 1) rest
      else nlRun k ++ c :: collapseNlAux 0 rest := rfl

/-- With newlines pending, the collapse output starts with a newline. -/
theorem collapseNlAux_head_pos : ∀ (l : List Char) (k : Nat), 1 ≤ k →
    (collapseNlAux k l).head? = some '\n'
  | [], k, hk => by
    show (nlRun k).head? = some '\n'
    unfold nlRun
    have h1 : 1 ≤ min k 2 := by omega
    cases hm : min k 2 with
    | zero => rw [hm] at h1; omega
    | succ m => rw [List.replicate_succ]; rfl
  | c :: rest, k, hk => by
    rw [collapseNlAux_cons]
    by_cases hc : c = '\n'
    · rw [if_pos hc]
      exact collapseNlAux_head_pos rest (k + 1) (by omega)
    · rw [if_neg hc]
      show (nlRun k ++ c :: collapseNlAux 0 rest).head? = some '\n'
      unfold nlRun
      have h1 : 1 ≤ min k 2 := by omega
      cases hm : min k 2 with
      | zero => rw [hm] at h1; omega
      | succ m => rw [List.replicate_succ, List.cons_append]; rfl

/-- A non-newline head of the collapse output is the head of its input. -/
theorem collapseNlAux0_head (rest : List Char) (z : Char) (hz : z ≠ '\n')
    (h : (collapseNlAux 0 rest).head? = some z) : rest.head? = some z := by
  cases rest with
  | nil => cases h
  | cons e r2 =>
    rw [collapseNlAux_cons] at h
    by_cases he : e = '\n'
    · rw [if_pos he, collapseNlAux_head_pos r2 1 (by omega)] at h
      exact absurd (Option.some.inj h).symm hz
    · rw [if_neg he, show nlRun 0 ++ e :: collapseNlAux 0 r2 = e :: collapseNlAux 0 r2
        from rfl] at h
      exact h

/-- A head before a newline contributes nothing. -/
theorem hasEur_cons_headNl (c : Char) (X : List Char) (h : X.head? = some '\n') :
    hasEur (c :: X) = hasEur X := by
  cases X with
  | nil => cases h
  | cons d X2 =>
    have hd : d = '\n' := Option.some.inj h
    subst hd
    cases X2 with
    | nil => rfl
    | cons e X3 =>
      rw [hasEur_cons3, show isU '\n' = false from by decide, Bool.and_false, Bool.false_and,
        Bool.false_or]

/-- Collapsing newline runs creates no occurrence. -/
theorem collapseNl_hasEur : ∀ (l : List Char) (k : Nat),
    hasEur (collapseNlAux k l) = true → hasEur l = true
  | [], k, h => by
    rw [show collapseNlAux k [] = nlRun k from rfl] at h
    unfold nlRun at h
    rw [hasEur_replicate_nl] at h
    exact absurd h Bool.false_ne_true
  | c :: rest, k, h => by
    rw [collapseNlAux_cons] at h
    by_cases hc : c = '\n'
    · rw [if_pos hc] at h
      have hr := collapseNl_hasEur rest (k + 1) h
      rw [hc, hasEur_cons_notE '\n' rest (by decide)]
      exact hr
    · rw [if_neg hc, show nlRun k = List.replicate (min k 2) '\n' from rfl,
        hasEur_nl_prefix] at h
      cases rest with
      | nil =>
        rw [show collapseNlAux 0 ([] : List Char) = [] from rfl, hasEur_one] at h
        exact absurd h Bool.false_ne_true
      | cons d rest2 =>
        by_cases hd : d = '\n'
        · subst hd
          rw [show collapseNlAux 0 ('\n' :: rest2) = collapseNlAux 1 rest2 from rfl,
            hasEur_cons_headNl c _ (collapseNlAux_head_pos rest2 1 (by omega))] at h
          have hr := collapseNl_hasEur rest2 1 h
          rw [hasEur_cons_headNl c ('\n' :: rest2) rfl,
            hasEur_cons_notE '\n' rest2 (by decide)]
          exact hr
        · rw [show collapseNlAux 0 (d :: rest2) =
            if d = '\n' then collapseNlAux 1 rest2
            else nlRun 0 ++ d :: collapseNlAux 0 rest2 from rfl, if_neg hd,
            show nlRun 0 ++ d :: collapseNlAux 0 rest2 = d :: collapseNlAux 0 rest2
              from rfl] at h
          cases hz : collapseNlAux 0 rest2 with
          | nil =>
            rw [hz, hasEur_two] at h
            exact absurd h Bool.false_ne_true
          | cons z Z2 =>
            rw [hz, hasEur_cons3, Bool.or_eq_true] at h
            rcases h with h | h
            · have hzR : isR z = true := by
                simp only [Bool.and_eq_true] at h
                exact h.2
              have hz_ne : z ≠ '\n' := by
                intro he
                rw [he] at hzR
                exact absurd hzR (by decide)
              have hhead : rest2.head? = some z := by
                apply collapseNlAux0_head rest2 z hz_ne
                rw [hz]
                rfl
              cases rest2 with
              | nil => cases hhead
              | cons z2 rest3 =>
                have hz2 : z2 = z := Option.some.inj hhead
                subst hz2
                rw [hasEur_cons3, Bool.or_eq_true]
                exact Or.inl h
            · have h2 : hasEur (collapseNlAux 0 (d :: rest2)) = true := by
                rw [show collapseNlAux 0 (d :: rest2) =
                  if d = '\n' then collapseNlAux 1 rest2
                  else nlRun 0 ++ d :: collapseNlAux 0 rest2 from rfl, if_neg hd,
                  show nlRun 0 ++ d :: collapseNlAux 0 rest2 = d :: collapseNlAux 0 rest2
                    from rfl, hz]
                exact h
              have hr := collapseNl_hasEur (d :: rest2) 0 h2
              exact hasEur_cons_of c _ hr

/-- Stripping boundary newlines creates no occurrence. -/
theorem hasEur_stripNlEnds (m : List Char) (h : hasEur (stripNlEnds m) = true) :
    hasEur m = true := by
  have h1 : hasEur (rdropNl m) = true := by
    have hd : rdropNl m =
        (rdropNl m).takeWhile (fun c => c = '\n') ++ dropNl (rdropNl m) :=
      (List.takeWhile_append_dropWhile _ _).symm
    rw [hd]
    exact hasEur_mono_left _ _ h
  have h2 : ∃ t, m = rdropNl m ++ t := by
    refine ⟨(m.reverse.takeWhile (fun c => c = '\n')).reverse, ?_⟩
    unfold rdropNl dropNl
    conv_lhs => rw [← List.reverse_reverse m,
      ← List.takeWhile_append_dropWhile (p := fun c => c = '\n') (l := m.reverse),
      List.reverse_append]
  obtain ⟨t, ht⟩ := h2
  rw [ht]
  exact hasEur_mono_right t _ h1

/-- The whitespace stage preserves eur-freedom. -/
theorem wsCore_hasEur (s : List Char) (h : hasEur s = false) : hasEur (wsCore s) = false := by
  by_contra hne
  rw [Bool.not_eq_false] at hne
  have h1 : hasEur (collapseNl (nlJoin ((splitNl s).map rstripL))) = true :=
    hasEur_stripNlEnds _ hne
  have h2 : hasEur (nlJoin ((splitNl s).map rstripL)) = true :=
    collapseNl_hasEur _ 0 h1
  rw [hasEur_nlJoin, List.any_eq_true] at h2
  obtain ⟨line, hline, hlineEur⟩ := h2
  rw [List.mem_map] at hline
  obtain ⟨l0, hl0, hl0eq⟩ := hline
  have h3 : hasEur l0 = true := hasEur_rstripL l0 (hl0eq ▸ hlineEur)
  have h4 : hasEur s = true := by
    rw [hasEur_splitNl, List.any_eq_true]
    exact ⟨l0, hl0, h3⟩
  rw [h] at h4
  exact absurd h4 Bool.false_ne_true

/-! ### Character provenance through the whitespace stage (C1) -/

/-- Characters of a right-stripped line come from the line. -/
theorem rstripL_subset (l : List Char) (c : Char) (h : c ∈ rstripL l) : c ∈ l := by
  obtain ⟨t, ht⟩ := rstripL_prefix l
  rw [ht]
  exact List.mem_append.mpr (Or.inl h)

/-- Characters of a newline join come from the lines or the separator. -/
theorem nlJoin_subset : ∀ (lines : List (List Char)) (c : Char), c ∈ nlJoin lines →
    c = '\n' ∨ ∃ line ∈ lines, c ∈ line
  | [], _, h => by cases h
  | [l], c, h => Or.inr ⟨l, List.mem_singleton_self l, h⟩
  | l :: l2 :: ls, c, h => by
    rw [show nlJoin (l :: l2 :: ls) = l ++ '\n' :: nlJoin (l2 :: ls) from rfl,
      List.mem_append] at h
    rcases h with h | h
    · exact Or.inr ⟨l, List.mem_cons_self l _, h⟩
    · rw [List.mem_cons] at h
      rcases h with h | h
      · exact Or.inl h
      · rcases nlJoin_subset (l2 :: ls) c h with h2 | ⟨line, hline, hc⟩
        · exact Or.inl h2
        · exact Or.inr ⟨line, List.mem_cons_of_mem l hline, hc⟩

/-- Characters of the collapse output come from its input or are newlines. -/
theorem collapseNlAux_subset : ∀ (l : List Char) (k : Nat) (c : Char),
    c ∈ collapseNlAux k l → c = '\n' ∨ c ∈ l
  | [], k, c, h => by
    rw [show collapseNlAux k [] = nlRun k from rfl,
      show nlRun k = List.replicate (min k 2) '\n' from rfl] at h
    exact Or.inl (List.eq_of_mem_replicate h)
  | d :: rest, k, c, h => by
    rw [collapseNlAux_cons] at h
    by_cases hd : d = '\n'
    · rw [if_pos hd] at h
      rcases collapseNlAux_subset rest (k + 1) c h with h2 | h2
      · exact Or.inl h2
      · exact Or.inr (List.mem_cons_of_mem d h2)
    · rw [if_neg hd, show nlRun k = List.replicate (min k 2) '\n' from rfl,
        List.mem_append] at h
      rcases h with h | h
      · exact Or.inl (List.eq_of_mem_replicate h)
      · rw [List.mem_cons] at h
        rcases h with h | h
        · exact Or.inr (h ▸ List.mem_cons_self d rest)
        · rcases collapseNlAux_subset rest 0 c h with h2 | h2
          · exact Or.inl h2
          · exact Or.inr (List.mem_cons_of_mem d h2)

/-- Characters survive the leading-newline strip. -/
theorem dropNl_subset (l : List Char) (c : Char) (h : c ∈ dropNl l) : c ∈ l := by
  have hd : l = l.takeWhile (fun c => c = '\n') ++ dropNl l :=
    (List.takeWhile_append_dropWhile _ _).symm
  rw [hd]
  exact List.mem_append.mpr (Or.inr h)

/-- Characters survive the trailing-newline strip. -/
theorem rdropNl_subset (l : List Char) (c : Char) (h : c ∈ rdropNl l) : c ∈ l := by
  unfold rdropNl at h
  rw [List.mem_reverse] at h
  have h2 := dropNl_subset l.reverse c h
  rwa [List.mem_reverse] at h2

/-- Characters survive the boundary-newline strip. -/
theorem stripNlEnds_subset (l : List Char) (c : Char) (h : c ∈ stripNlEnds l) : c ∈ l :=
  rdropNl_subset l c (dropNl_subset (rdropNl l) c h)

/-- A non-newline character of the whitespace-stage output occurs in its input. -/
theorem wsCore_subset (s : List Char) (c : Char) (hc : c ≠ '\n') (h : c ∈ wsCore s) :
    c ∈ s := by
  have h1 : c ∈ collapseNl (nlJoin ((splitNl s).map rstripL)) := stripNlEnds_subset _ c h
  rcases collapseNlAux_subset _ 0 c h1 with h2 | h2
  · exact absurd h2 hc
  · rcases nlJoin_subset _ c h2 with h3 | ⟨line, hline, hcl⟩
    · exact absurd h3 hc
    · rw [List.mem_map] at hline
      obtain ⟨l0, hl0, hl0eq⟩ := hline
      exact splitNl_chars s l0 hl0 c (rstripL_subset l0 c (hl0eq ▸ hcl))

/-! ### Texts whose lines carry no trailing whitespace (C1) -/

/-- No line of the text ends in whitespace: scanning adjacent pairs, a
whitespace character other than a newline never stands immediately before a
newline or at the end of the text. -/
def noTrailWs : List Char → Bool
  | [] => true
  | [c] => !(pyWs c && !(c = '\n'))
  | c :: d :: rest => (!(pyWs c && !(c = '\n')) || !(d = '\n')) && noTrailWs (d :: rest)

/-- Unfolding equation of `noTrailWs` on two or more characters. -/
theorem noTrailWs_cons2 (c d : Char) (rest : List Char) :
    noTrailWs (c :: d :: rest) =
      ((!(pyWs c && !(c = '\n')) || !(d = '\n')) && noTrailWs (d :: rest)) := rfl

/-- Trail-cleanliness passes to the tail. -/
theorem noTrailWs_tail (c : Char) (t : List Char) (h : noTrailWs (c :: t) = true) :
    noTrailWs t = true := by
  cases t with
  | nil => rfl
  | cons d rest =>
    rw [noTrailWs_cons2, Bool.and_eq_true] at h
    exact h.2

/-- A leading newline keeps a text trail-clean. -/
theorem noTrailWs_cons_nl (t : List Char) (h : noTrailWs t = true) :
    noTrailWs ('\n' :: t) = true := by
  cases t with
  | nil => decide
  | cons d rest =>
    rw [noTrailWs_cons2, h, Bool.and_true,
      show (!(pyWs '\n' && !('\n' = '\n'))) = true from by decide, Bool.true_or]

/-- A pure newline run is trail-clean. -/
theorem noTrailWs_replicate_nl : ∀ n : Nat, noTrailWs (List.replicate n '\n') = true
  | 0 => rfl
  | n + 1 => by
    rw [List.replicate_succ]
    exact noTrailWs_cons_nl _ (noTrailWs_replicate_nl n)

/-- A leading newline run keeps a text trail-clean. -/
theorem noTrailWs_replicate_prefix : ∀ (j : Nat) (X : List Char), noTrailWs X = true →
    noTrailWs (List.replicate j '\n' ++ X) = true
  | 0, _, h => h
  | j + 1, X, h => by
    rw [List.replicate_succ, List.cons_append]
    exact noTrailWs_cons_nl _ ( noTrailWs_replicate_prefix j X h)

/-- A newline-free line whose last character is not whitespace is trail-clean. -/
theorem noTrailWs_line : ∀ m : List Char, '\n' ∉ m →
    (∀ c, m.getLast? = some c → pyWs c = false) → noTrailWs m = true
  | [], _, _ => rfl
  | [c], _, hl => by
    show (!(pyWs c && !(c = '\n'))) = true
    rw [hl c rfl, Bool.false_and]
    rfl
  | c :: d :: rest, hm, hl => by
    rw [noTrailWs_cons2]
    have hd : ¬(d = '\n') := fun h =>
      hm (h ▸ List.mem_cons_of_mem c (List.mem_cons_self d rest))
    rw [show (decide (d = '\n')) = false from decide_eq_false hd, Bool.not_false,
      Bool.or_true, Bool.true_and]
    exact noTrailWs_line (d :: rest)
      (fun h => hm (List.mem_cons_of_mem c h))
      (fun e he => hl e (by rw [List.getLast?_cons_cons]; exact he))

/-- Joining a clean newline-free line, a newline and a clean text stays
trail-clean. -/
theorem noTrailWs_line_append : ∀ (m T : List Char), '\n' ∉ m →
    (∀ c, m.getLast? = some c → pyWs c = false) → noTrailWs T = true →
    noTrailWs (m ++ '\n' :: T) = true
  | [], T, _, _, hT => noTrailWs_cons_nl T hT
  | [c], T, _, hl, hT => by
    show noTrailWs (c :: '\n' :: T) = true
    rw [noTrailWs_cons2, hl c rfl, Bool.false_and, Bool.not_false, Bool.true_or,
      Bool.true_and]
    exact noTrailWs_cons_nl T hT
  | c :: d :: m2, T, hm, hl, hT => by
    show noTrailWs (c :: d :: (m2 ++ '\n' :: T)) = true
    rw [noTrailWs_cons2]
    have hd : ¬(d = '\n') := fun h =>
      hm (h ▸ List.mem_cons_of_mem c (List.mem_cons_self d m2))
    rw [show (decide (d = '\n')) = false from decide_eq_false hd, Bool.not_false,
      Bool.or_true, Bool.true_and]
    exact noTrailWs_line_append (d :: m2) T
      (fun h => hm (List.mem_cons_of_mem c h))
      (fun e he => hl e (by rw [List.getLast?_cons_cons]; exact he))
      hT

/-- A join of clean newline-free lines is trail-clean. -/
theorem noTrailWs_nlJoin : ∀ lines : List (List Char),
    (∀ m ∈ lines, '\n' ∉ m ∧ ∀ c, m.getLast? = some c → pyWs c = false) →
    noTrailWs (nlJoin lines) = true
  | [], _ => rfl
  | [m], h => by
    have hm := h m (List.mem_singleton_self m)
    exact noTrailWs_line m hm.1 hm.2
  | m :: m2 :: ls, h => by
    show noTrailWs (m ++ '\n' :: nlJoin (m2 :: ls)) = true
    have hm := h m (List.mem_cons_self m _)
    exact noTrailWs_line_append m _ hm.1 hm.2
      (noTrailWs_nlJoin (m2 :: ls) (fun x hx => h x (List.mem_cons_of_mem m hx)))

/-- The head of a `dropWhile` output fails the predicate. -/
theorem dropWhile_head_false (p : Char → Bool) : ∀ (l : List Char) (c : Char),
    (l.dropWhile p).head? = some c → p c = false
  | [], c, h => by cases h
  | x :: xs, c, h => by
    rw [List.dropWhile_cons] at h
    by_cases hx : p x = true
    · rw [if_pos hx] at h
      exact dropWhile_head_false p xs c h
    · rw [if_neg hx] at h
      have hpx : p x = false := by
        revert hx
        cases p x <;> simp
      rw [← Option.some.inj h]
      exact hpx

/-- The last character of a right-stripped line is not whitespace. -/
theorem rstripL_last (l : List Char) (c : Char) (h : (rstripL l).getLast? = some c) :
    pyWs c = false := by
  unfold rstripL at h
  rw [List.getLast?_reverse] at h
  exact dropWhile_head_false pyWs l.reverse c h

/-- The head of the collapse output for an input with a non-newline head. -/
theorem collapseNlAux0_head_eq (e : Char) (r : List Char) (he : ¬(e = '\n')) :
    (collapseNlAux 0 (e :: r)).head? = some e := by
  rw [collapseNlAux_cons, if_neg he,
    show nlRun 0 ++ e :: collapseNlAux 0 r = e :: collapseNlAux 0 r from rfl]
  rfl

/-- Collapsing newline runs keeps a text trail-clean. -/
theorem noTrailWs_collapse : ∀ (t : List Char) (k : Nat), noTrailWs t = true →
    noTrailWs (collapseNlAux k t) = true
  | [], k, _ => by
    rw [show collapseNlAux k [] = nlRun k from rfl]
    exact noTrailWs_replicate_nl (min k 2)
  | c :: rest, k, h => by
    rw [collapseNlAux_cons]
    by_cases hc : c = '\n'
    · rw [if_pos hc]
      exact noTrailWs_collapse rest (k + 1) (noTrailWs_tail c rest h)
    · rw [if_neg hc]
      have hmain : noTrailWs (c :: collapseNlAux 0 rest) = true := by
        cases rest with
        | nil => exact h
        | cons e r =>
          have hrest : noTrailWs (collapseNlAux 0 (e :: r)) = true :=
            noTrailWs_collapse (e :: r) 0 (noTrailWs_tail c (e :: r) h)
          by_cases he : e = '\n'
          · subst he
            rw [noTrailWs_cons2, Bool.and_eq_true] at h
            have hpair := h.1
            rw [show (decide ('\n' = '\n')) = true from by decide, Bool.not_true,
              Bool.or_false] at hpair
            have hpw : pyWs c = false := by
              rw [show (decide (c = '\n')) = false from decide_eq_false hc, Bool.not_false,
                Bool.and_true] at hpair
              revert hpair
              cases pyWs c <;> simp
            cases hz : collapseNlAux 0 ('\n' :: r) with
            | nil =>
              show noTrailWs [c] = true
              rw [show noTrailWs [c] = !(pyWs c && !(c = '\n')) from rfl, hpw,
                Bool.false_and]
              rfl
            | cons z Z =>
              rw [noTrailWs_cons2, hpw, Bool.false_and, Bool.not_false, Bool.true_or,
                Bool.true_and, ← hz]
              exact hrest
          · have hhd := collapseNlAux0_head_eq e r he
            cases hz : collapseNlAux 0 (e :: r) with
            | nil =>
              rw [hz] at hhd
              cases hhd
            | cons z Z =>
              rw [hz] at hhd
              have hze : z = e := Option.some.inj hhd
              rw [noTrailWs_cons2,
                show (decide (z = '\n')) = false from decide_eq_false (by rw [hze]; exact he),
                Bool.not_false, Bool.or_true, Bool.true_and, ← hz]
              exact hrest
      rw [show nlRun k = List.replicate (min k 2) '\n' from rfl]
      exact noTrailWs_replicate_prefix (min k 2) _ hmain

/-- Dropping leading newlines keeps a text trail-clean. -/
theorem noTrailWs_dropNl : ∀ t : List Char, noTrailWs t = true →
    noTrailWs (dropNl t) = true
  | [], h => h
  | c :: rest, h => by
    unfold dropNl
    rw [List.dropWhile_cons]
    by_cases hc : c = '\n'
    · rw [if_pos (decide_eq_true hc)]
      exact noTrailWs_dropNl rest (noTrailWs_tail c rest h)
    · rw [if_neg (fun hh => hc (of_decide_eq_true hh))]
      exact h

/-- Peeling a trailing newline run off a clean text keeps it clean. -/
theorem noTrailWs_peel : ∀ (X : List Char) (j : Nat),
    noTrailWs (X ++ List.replicate j '\n') = true → noTrailWs X = true
  | [], _, _ => rfl
  | [c], j, h => by
    cases j with
    | zero => exact h
    | succ j2 =>
      rw [show (([c] : List Char) ++ List.replicate (j2 + 1) '\n') =
        c :: '\n' :: List.replicate j2 '\n' from by rw [List.replicate_succ]; rfl] at h
      rw [noTrailWs_cons2, Bool.and_eq_true] at h
      have hpair := h.1
      rw [show (decide ('\n' = '\n')) = true from by decide, Bool.not_true,
        Bool.or_false] at hpair
      exact hpair
  | c :: d :: X2, j, h => by
    rw [show ((c :: d :: X2) ++ List.replicate j '\n') =
      c :: d :: (X2 ++ List.replicate j '\n') from rfl] at h
    rw [noTrailWs_cons2, Bool.and_eq_true] at h
    rw [noTrailWs_cons2, h.1, Bool.true_and]
    exact noTrailWs_peel (d :: X2) j h.2

/-- Decomposition of the trailing-newline strip. -/
theorem rdropNl_decomp (t : List Char) : ∃ j, t = rdropNl t ++ List.replicate j '\n' := by
  refine ⟨(t.reverse.takeWhile (fun c => c = '\n')).length, ?_⟩
  unfold rdropNl dropNl
  conv_lhs => rw [← List.reverse_reverse t,
    ← List.takeWhile_append_dropWhile (p := fun c => c = '\n') (l := t.reverse),
    List.reverse_append]
  congr 1
  have hall : ∀ c ∈ t.reverse.takeWhile (fun c => c = '\n'), c = '\n' := by
    intro c hc
    have h2 := List.mem_takeWhile_imp hc
    exact of_decide_eq_true h2
  have h1 : t.reverse.takeWhile (fun c => c = '\n') =
      List.replicate (t.reverse.takeWhile (fun c => c = '\n')).length '\n' :=
    List.eq_replicate_of_mem hall
  conv_lhs => rw [h1]
  rw [List.reverse_replicate]

/-- Dropping trailing newlines keeps a text trail-clean. -/
theorem noTrailWs_rdropNl (t : List Char) (h : noTrailWs t = true) :
    noTrailWs (rdropNl t) = true := by
  obtain ⟨j, hj⟩ := rdropNl_decomp t
  rw [hj] at h
  exact noTrailWs_peel (rdropNl t) j h

/-- Stripping boundary newlines keeps a text trail-clean. -/
theorem noTrailWs_stripNlEnds (t : List Char) (h : noTrailWs t = true) :
    noTrailWs (stripNlEnds t) = true :=
  noTrailWs_dropNl _ (noTrailWs_rdropNl t h)

/-- The output of the whitespace stage is trail-clean. -/
theorem wsCore_noTrailWs (s : List Char) : noTrailWs (wsCore s) = true := by
  show noTrailWs (stripNlEnds (collapseNlAux 0 (nlJoin ((splitNl s).map rstripL)))) = true
  apply noTrailWs_stripNlEnds
  apply noTrailWs_collapse
  apply noTrailWs_nlJoin
  intro m hm
  rw [List.mem_map] at hm
  obtain ⟨l0, hl0, rfl⟩ := hm
  constructor
  · intro hmem
    exact splitNl_nl_free s l0 hl0 (rstripL_subset l0 '\n' hmem)
  · exact fun c hc => rstripL_last l0 c hc

/-! ### Strip-fixed lines of a trail-clean text (C1) -/

/-- Right-stripping skips a head when the tail is nonempty and strip-fixed. -/
theorem rstripL_cons_fixed (c : Char) (l : List Char) (hne : l ≠ [])
    (hl : rstripL l = l) : rstripL (c :: l) = c :: l := by
  cases l with
  | nil => exact absurd rfl hne
  | cons x l2 =>
    apply rstripL_eq_self_of_last
    intro e he
    rw [List.getLast?_cons_cons] at he
    apply rstripL_last (x :: l2) e
    rw [hl]
    exact he

/-- The first line of a split is empty only for an empty or newline-headed
text. -/
theorem splitNl_first_empty : ∀ (t : List Char) (ls : List (List Char)),
    splitNl t = [] :: ls → t = [] ∨ t.head? = some '\n'
  | [], _, _ => Or.inl rfl
  | c :: rest, ls, h => by
    by_cases hc : c = '\n'
    · exact Or.inr (by rw [hc]; rfl)
    · rw [splitNl_cons, if_neg hc] at h
      cases hs : splitNl rest with
      | nil => exact absurd hs (splitNl_ne_nil rest)
      | cons l0 ls0 =>
        rw [hs] at h
        injection h with h1 h2
        exact absurd h1 (List.cons_ne_nil c l0)

/-- In a trail-clean text every line is right-strip fixed. -/
theorem splitNl_rstrip_fixed : ∀ t : List Char, noTrailWs t = true →
    ∀ line ∈ splitNl t, rstripL line = line
  | [], _, line, hline => by
    simp only [splitNl, List.mem_singleton] at hline
    subst hline
    rfl
  | c :: rest, h, line, hline => by
    by_cases hc : c = '\n'
    · rw [show splitNl (c :: rest) = [] :: splitNl rest from by
        rw [hc, splitNl_cons_nl]] at hline
      rcases List.mem_cons.mp hline with h1 | h1
      · subst h1
        rfl
      · exact splitNl_rstrip_fixed rest (noTrailWs_tail c rest h) line h1
    · cases hs : splitNl rest with
      | nil => exact absurd hs (splitNl_ne_nil rest)
      | cons l0 ls0 =>
        rw [show splitNl (c :: rest) = (c :: l0) :: ls0 from by
          rw [splitNl_cons, if_neg hc, hs]] at hline
        rcases List.mem_cons.mp hline with h1 | h1
        · subst h1
          cases hl0 : l0 with
          | nil =>
            subst hl0
            have hrest : rest = [] ∨ rest.head? = some '\n' :=
              splitNl_first_empty rest ls0 hs
            have hpw : pyWs c = false := by
              rcases hrest with h2 | h2
              · subst h2
                rw [show noTrailWs [c] = !(pyWs c && !(c = '\n')) from rfl,
                  show (decide (c = '\n')) = false from decide_eq_false hc, Bool.not_false,
                  Bool.and_true] at h
                revert h
                cases pyWs c <;> simp
              · cases rest with
                | nil => cases h2
                | cons e r =>
                  have he : e = '\n' := Option.some.inj h2
                  subst he
                  rw [noTrailWs_cons2, Bool.and_eq_true] at h
                  have hpair := h.1
                  rw [show (decide ('\n' = '\n')) = true from by decide, Bool.not_true,
                    Bool.or_false, show (decide (c = '\n')) = false from decide_eq_false hc,
                    Bool.not_false, Bool.and_true] at hpair
                  revert hpair
                  cases pyWs c <;> simp
            apply rstripL_eq_self_of_last
            intro e he
            have hec : e = c := by
              rw [show ([c] : List Char).getLast? = some c from rfl] at he
              exact (Option.some.inj he).symm
            rw [hec]
            exact hpw
          | cons x l2 =>
            subst hl0
            apply rstripL_cons_fixed c (x :: l2) (List.cons_ne_nil x l2)
            exact splitNl_rstrip_fixed rest (noTrailWs_tail c rest h) (x :: l2)
              (by rw [hs]; exact List.mem_cons_self _ _)
        · exact splitNl_rstrip_fixed rest (noTrailWs_tail c rest h) line
            (by rw [hs]; exact List.mem_cons_of_mem l0 h1)

/-- Mapping a function that fixes every element is the identity. -/
theorem map_id_of_mem (f : List Char → List Char) : ∀ l : List (List Char),
    (∀ x ∈ l, f x = x) → l.map f = l
  | [], _ => rfl
  | x :: xs, h => by
    rw [List.map_cons, h x (List.mem_cons_self x xs),
      map_id_of_mem f xs (fun y hy => h y (List.mem_cons_of_mem x hy))]

/-- In a trail-clean text, right-stripping the lines is the identity. -/
theorem map_rstripL_id (t : List Char) (h : noTrailWs t = true) :
    (splitNl t).map rstripL = splitNl t :=
  map_id_of_mem rstripL (splitNl t) (splitNl_rstrip_fixed t h)

/-! ### Three-newline runs and the collapse (C1) -/

/-- Whether the text contains three consecutive newlines: the trigger of the
run-collapsing substitution. -/
def has3Nl : List Char → Bool
  | c1 :: c2 :: c3 :: rest =>
    (c1 = '\n' && c2 = '\n' && c3 = '\n') || has3Nl (c2 :: c3 :: rest)
  | _ => false

/-- Unfolding equation of `has3Nl` on three or more characters. -/
theorem has3Nl_cons3 (c1 c2 c3 : Char) (rest : List Char) :
    has3Nl (c1 :: c2 :: c3 :: rest) =
      ((c1 = '\n' && c2 = '\n' && c3 = '\n') || has3Nl (c2 :: c3 :: rest)) := rfl

/-- Adding a head to a text with a triple run keeps the triple run. -/
theorem has3Nl_cons_of (c : Char) (l : List Char) (h : has3Nl l = true) :
    has3Nl (c :: l) = true := by
  match l with
  | [] => exact absurd h (by rw [show has3Nl [] = false from rfl]; exact Bool.false_ne_true)
  | [x] => exact absurd h (by rw [show has3Nl [x] = false from rfl]; exact Bool.false_ne_true)
  | x :: y :: rest => rw [has3Nl_cons3, h, Bool.or_true]

/-- Appending on the right keeps a triple run. -/
theorem has3Nl_mono_right (b : List Char) : ∀ a : List Char, has3Nl a = true →
    has3Nl (a ++ b) = true
  | [], h => absurd h (by rw [show has3Nl [] = false from rfl]; exact Bool.false_ne_true)
  | [x], h => absurd h (by rw [show has3Nl [x] = false from rfl]; exact Bool.false_ne_true)
  | [x, y], h =>
    absurd h (by rw [show has3Nl [x, y] = false from rfl]; exact Bool.false_ne_true)
  | x :: y :: z :: rest, h => by
    rw [has3Nl_cons3, Bool.or_eq_true] at h
    show has3Nl (x :: y :: z :: (rest ++ b)) = true
    rw [has3Nl_cons3, Bool.or_eq_true]
    rcases h with h | h
    · exact Or.inl h
    · exact Or.inr (has3Nl_mono_right b (y :: z :: rest) h)

/-- Appending on the left keeps a triple run. -/
theorem has3Nl_mono_left (a b : List Char) (h : has3Nl b = true) :
    has3Nl (a ++ b) = true := by
  induction a with
  | nil => exact h
  | cons c a ih => exact has3Nl_cons_of c _ ih

/-- A newline run of length at least three has a triple run. -/
theorem has3Nl_replicate (k : Nat) (h : 3 ≤ k) :
    has3Nl (List.replicate k '\n') = true := by
  obtain ⟨m, rfl⟩ : ∃ m, k = m + 3 := ⟨k - 3, by omega⟩
  rw [List.replicate_succ, List.replicate_succ, List.replicate_succ, has3Nl_cons3]
  simp

/-- A non-newline in the second slot blocks a window. -/
theorem has3Nl_cons_notNl2 (a c : Char) (X : List Char) (hc : ¬(c = '\n')) :
    has3Nl (a :: c :: X) = has3Nl (c :: X) := by
  cases X with
  | nil => rfl
  | cons x X2 =>
    rw [has3Nl_cons3, show (decide (c = '\n')) = false from decide_eq_false hc,
      Bool.and_false, Bool.false_and, Bool.false_or]

/-- A non-newline head blocks a window. -/
theorem has3Nl_cons_notNl (c : Char) (X : List Char) (hc : ¬(c = '\n')) :
    has3Nl (c :: X) = has3Nl X := by
  cases X with
  | nil => rfl
  | cons x X2 =>
    cases X2 with
    | nil => rfl
    | cons y X3 =>
      rw [has3Nl_cons3, show (decide (c = '\n')) = false from decide_eq_false hc,
        Bool.false_and, Bool.false_and, Bool.false_or]

/-- A short newline run before a non-newline adds no triple run. -/
theorem has3Nl_run2_prefix (j : Nat) (hj : j ≤ 2) (c : Char) (X : List Char)
    (hc : ¬(c = '\n')) :
    has3Nl (List.replicate j '\n' ++ c :: X) = has3Nl (c :: X) := by
  match j, hj with
  | 0, _ => rfl
  | 1, _ =>
    show has3Nl ('\n' :: c :: X) = has3Nl (c :: X)
    exact has3Nl_cons_notNl2 '\n' c X hc
  | 2, _ =>
    show has3Nl ('\n' :: '\n' :: c :: X) = has3Nl (c :: X)
    rw [has3Nl_cons3, show (decide (c = '\n')) = false from decide_eq_false hc,
      Bool.and_false, Bool.false_or]
    exact has3Nl_cons_notNl2 '\n' c X hc
  | j2 + 3, hj2 => exact absurd hj2 (by omega)

/-- The collapse output never contains three consecutive newlines. -/
theorem collapseNlAux_no3 : ∀ (t : List Char) (k : Nat),
    has3Nl (collapseNlAux k t) = false
  | [], k => by
    rw [show collapseNlAux k [] = nlRun k from rfl,
      show nlRun k = List.replicate (min k 2) '\n' from rfl]
    rcases (show min k 2 = 0 ∨ min k 2 = 1 ∨ min k 2 = 2 from by omega) with h | h | h <;>
      rw [h] <;> rfl
  | c :: rest, k => by
    rw [collapseNlAux_cons]
    by_cases hc : c = '\n'
    · rw [if_pos hc]
      exact collapseNlAux_no3 rest (k + 1)
    · rw [if_neg hc, show nlRun k = List.replicate (min k 2) '\n' from rfl,
        has3Nl_run2_prefix (min k 2) (by omega) c _ hc, has3Nl_cons_notNl c _ hc]
      exact collapseNlAux_no3 rest 0

/-- Dropping leading newlines adds no triple run. -/
theorem has3Nl_dropNl (t : List Char) (h : has3Nl t = false) :
    has3Nl (dropNl t) = false := by
  cases hd : has3Nl (dropNl t) with
  | false => rfl
  | true =>
    have hdec : t = t.takeWhile (fun c => c = '\n') ++ dropNl t :=
      (List.takeWhile_append_dropWhile _ _).symm
    rw [hdec, has3Nl_mono_left _ _ hd] at h
    exact absurd h (by decide)

/-- Dropping trailing newlines adds no triple run. -/
theorem has3Nl_rdropNl (t : List Char) (h : has3Nl t = false) :
    has3Nl (rdropNl t) = false := by
  cases hd : has3Nl (rdropNl t) with
  | false => rfl
  | true =>
    obtain ⟨j, hj⟩ := rdropNl_decomp t
    rw [hj, has3Nl_mono_right _ _ hd] at h
    exact absurd h (by decide)

/-- Stripping boundary newlines adds no triple run. -/
theorem has3Nl_stripNlEnds (t : List Char) (h : has3Nl t = false) :
    has3Nl (stripNlEnds t) = false :=
  has3Nl_dropNl _ (has3Nl_rdropNl t h)

/-- Without a triple newline run the collapse is the identity. -/
theorem collapseNlAux_eq_self : ∀ (t : List Char) (k : Nat),
    has3Nl (List.replicate k '\n' ++ t) = false →
    collapseNlAux k t = List.replicate k '\n' ++ t
  | [], k, h => by
    rw [show collapseNlAux k [] = nlRun k from rfl,
      show nlRun k = List.replicate (min k 2) '\n' from rfl, List.append_nil]
    have hk : k ≤ 2 := by
      by_contra hgt
      rw [List.append_nil, has3Nl_replicate k (by omega)] at h
      exact absurd h (by decide)
    rw [show min k 2 = k from by omega]
  | c :: rest, k, h => by
    rw [collapseNlAux_cons]
    have hrepl : List.replicate (k + 1) '\n' ++ rest =
        List.replicate k '\n' ++ '\n' :: rest := by
      rw [List.replicate_succ', List.append_assoc]
      rfl
    by_cases hc : c = '\n'
    · rw [if_pos hc]
      rw [hc] at h
      have h2 : has3Nl (List.replicate (k + 1) '\n' ++ rest) = false := by
        rw [hrepl]
        exact h
      rw [collapseNlAux_eq_self rest (k + 1) h2, hrepl, hc]
    · rw [if_neg hc]
      have hk : k ≤ 2 := by
        by_contra hgt
        rw [has3Nl_mono_right _ _ (has3Nl_replicate k (by omega))] at h
        exact absurd h (by decide)
      have h3 : has3Nl rest = false := by
        cases hr : has3Nl rest with
        | false => rfl
        | true =>
          have hmono := has3Nl_mono_left (List.replicate k '\n' ++ [c]) rest hr
          rw [List.append_assoc, show (([c] : List Char) ++ rest) = c :: rest from rfl]
            at hmono
          rw [hmono] at h
          exact absurd h (by decide)
      rw [collapseNlAux_eq_self rest 0
        (by rw [show List.replicate 0 '\n' ++ rest = rest from rfl]; exact h3),
        show List.replicate 0 '\n' ++ rest = rest from rfl,
        show nlRun k = List.replicate (min k 2) '\n' from rfl,
        show min k 2 = k from by omega]

/-! ### Idempotence of the boundary strip and of the whitespace stage (C1) -/

/-- A `dropWhile` fixes a list whose head fails the predicate. -/
theorem dropWhile_eq_self_head (p : Char → Bool) (l : List Char)
    (h : ∀ c, l.head? = some c → p c = false) : l.dropWhile p = l := by
  cases l with
  | nil => rfl
  | cons c rest =>
    rw [List.dropWhile_cons, h c rfl]
    simp

/-- The head of the leading strip is not a newline. -/
theorem dropNl_head (t : List Char) (c : Char) (h : (dropNl t).head? = some c) :
    ¬(c = '\n') := by
  have h2 := dropWhile_head_false (fun c => c = '\n') t c h
  intro he
  have h3 : decide (c = '\n') = false := h2
  rw [decide_eq_true he] at h3
  exact absurd h3 (by decide)

/-- Dropping leading newlines is idempotent. -/
theorem dropNl_idem (t : List Char) : dropNl (dropNl t) = dropNl t := by
  cases hd : dropNl t with
  | nil => rfl
  | cons c r =>
    have hc : ¬(c = '\n') := dropNl_head t c (by rw [hd]; rfl)
    unfold dropNl
    rw [List.dropWhile_cons, if_neg (fun hh => hc (of_decide_eq_true hh))]

/-- The last character survives a nonempty leading strip. -/
theorem dropNl_getLast (t : List Char) (c0 : Char) (r0 : List Char)
    (h : dropNl t = c0 :: r0) : t.getLast? = (c0 :: r0).getLast? := by
  have hdec : t = t.takeWhile (fun c => c = '\n') ++ dropNl t :=
    (List.takeWhile_append_dropWhile _ _).symm
  conv_lhs => rw [hdec, h]
  rw [List.getLast?_append_cons]

/-- The last character of the trailing strip is not a newline. -/
theorem rdropNl_last (t : List Char) (c : Char) (h : (rdropNl t).getLast? = some c) :
    ¬(c = '\n') := by
  unfold rdropNl at h
  rw [List.getLast?_reverse] at h
  have h2 := dropWhile_head_false (fun c => c = '\n') t.reverse c h
  intro he
  have h3 : decide (c = '\n') = false := h2
  rw [decide_eq_true he] at h3
  exact absurd h3 (by decide)

/-- The trailing strip fixes a text whose last character is not a newline. -/
theorem rdropNl_eq_self (t : List Char)
    (h : ∀ c, t.getLast? = some c → ¬(c = '\n')) : rdropNl t = t := by
  unfold rdropNl dropNl
  rw [dropWhile_eq_self_head _ t.reverse (by
    intro c hc
    rw [List.head?_reverse] at hc
    exact decide_eq_false (h c hc))]
  exact t.reverse_reverse

/-- Stripping boundary newlines is idempotent. -/
theorem stripNlEnds_idem (t : List Char) : stripNlEnds (stripNlEnds t) = stripNlEnds t := by
  show dropNl (rdropNl (dropNl (rdropNl t))) = dropNl (rdropNl t)
  have h1 : rdropNl (dropNl (rdropNl t)) = dropNl (rdropNl t) := by
    apply rdropNl_eq_self
    intro c hc
    cases hd : dropNl (rdropNl t) with
    | nil =>
      rw [hd] at hc
      cases hc
    | cons c0 r0 =>
      rw [hd] at hc
      have hl := dropNl_getLast (rdropNl t) c0 r0 hd
      rw [← hl] at hc
      exact rdropNl_last t c hc
  rw [h1, dropNl_idem]

/-- The whitespace stage is idempotent. -/
theorem wsCore_idem (s : List Char) : wsCore (wsCore s) = wsCore s := by
  have hW : noTrailWs (wsCore s) = true := wsCore_noTrailWs s
  show stripNlEnds (collapseNl (nlJoin ((splitNl (wsCore s)).map rstripL))) = wsCore s
  rw [map_rstripL_id (wsCore s) hW, nlJoin_splitNl]
  have h3 : has3Nl (wsCore s) = false := by
    show has3Nl (stripNlEnds (collapseNlAux 0 (nlJoin ((splitNl s).map rstripL)))) = false
    exact has3Nl_stripNlEnds _ (collapseNlAux_no3 _ 0)
  rw [show collapseNl (wsCore s) = collapseNlAux 0 (wsCore s) from rfl,
    collapseNlAux_eq_self (wsCore s) 0
      (by rw [show List.replicate 0 '\n' ++ wsCore s = wsCore s from rfl]; exact h3),
    show List.replicate 0 '\n' ++ wsCore s = wsCore s from rfl]
  show stripNlEnds (stripNlEnds (collapseNl (nlJoin ((splitNl s).map rstripL)))) = wsCore s
  rw [stripNlEnds_idem]
  rfl

/-- C1 counterexample: normalization is not idempotent.  On
`"x\na\nb |"` the first pass merges the continuation line `"b |"` into
`"a"`, producing the new continuation line `"a b |"`, which the second pass
merges into `"x"`; the two passes give `"x\na b |"` and then `"x a b |"`. -/
theorem c1_counterexample :
    normalize_for_llm (normalize_for_llm "x\na\nb |") ≠ normalize_for_llm "x\na\nb |" := by
  decide

/-- C1 (amended): `normalize_for_llm` is idempotent on inputs that trigger none
of the rewriting stages: no `<` (HTML break), no replacement character, no euro
sign, no `|` (table continuation) and no case-insensitive `eur` letter
sequence.  On such inputs only the whitespace stage acts, and it is
idempotent. -/
theorem c1_idempotent_clean (x : String) (h1 : '<' ∉ x.data) (h2 : repChar ∉ x.data)
    (h3 : euroChar ∉ x.data) (h4 : '|' ∉ x.data) (h5 : hasEur x.data = false) :
    normalize_for_llm (normalize_for_llm x) = normalize_for_llm x := by
  by_cases hx : x.data.isEmpty = true
  · have hid : normalize_for_llm x = x := by
      unfold normalize_for_llm
      rw [if_pos hx]
    rw [hid, hid]
  · have hnorm : normalize_for_llm x = String.mk (wsCore x.data) := by
      unfold normalize_for_llm
      rw [if_neg hx, normalizeCore_clean x.data h1 h2 h3 h4 h5]
    rw [hnorm]
    unfold normalize_for_llm
    by_cases hw : (String.mk (wsCore x.data)).data.isEmpty = true
    · rw [if_pos hw]
    · rw [if_neg hw]
      have g1 : '<' ∉ wsCore x.data := fun hm => h1 (wsCore_subset _ _ (by decide) hm)
      have g2 : repChar ∉ wsCore x.data := fun hm => h2 (wsCore_subset _ _ (by decide) hm)
      have g3 : euroChar ∉ wsCore x.data := fun hm => h3 (wsCore_subset _ _ (by decide) hm)
      have g4 : '|' ∉ wsCore x.data := fun hm => h4 (wsCore_subset _ _ (by decide) hm)
      have g5 : hasEur (wsCore x.data) = false := wsCore_hasEur x.data h5
      show String.mk (normalizeCore (wsCore x.data)) = String.mk (wsCore x.data)
      rw [normalizeCore_clean (wsCore x.data) g1 g2 g3 g4 g5, wsCore_idem]

/-- Witness for C1: the amended idempotence theorem applied to a concrete
trigger-free input with extra blank lines and trailing spaces. -/
theorem c1_witness :
    ('<' ∉ "ab  cd\n\n\n e ".data ∧ repChar ∉ "ab  cd\n\n\n e ".data ∧
      euroChar ∉ "ab  cd\n\n\n e ".data ∧ '|' ∉ "ab  cd\n\n\n e ".data ∧
      hasEur "ab  cd\n\n\n e ".data = false) ∧
    normalize_for_llm (normalize_for_llm "ab  cd\n\n\n e ") =
      normalize_for_llm "ab  cd\n\n\n e " :=
  ⟨⟨by decide, by decide, by decide, by decide, by decide⟩,
    c1_idempotent_clean "ab  cd\n\n\n e " (by decide) (by decide) (by decide) (by decide)
      (by decide)⟩

/-- C3 counterexample: the bare-code form is only upper-cased in place, no
trailing space is inserted: `"15 eur."` normalizes to `"15 EUR."`, not to the
claimed `"15 EUR ."` (amount, space, code, trailing space, then the context). -/
theorem c3_counterexample :
    normalize_for_llm "15 eur." = "15 EUR." ∧ ("15 EUR." : String) ≠ "15 EUR ." := by
  exact ⟨by decide, by decide⟩

/-- C4 counterexample: a parsed response carrying one of the two required keys
(just `marketing_summary`) is rejected by the code, while the claim says a
response with at least one of the two keys is not rejected by this condition. -/
theorem c4_one_key_rejected :
    generate_summary_and_prompt (some "k")
      "\x7b\"marketing_summary\": \"x\"\x7d" = .error .missingKey := by
  rfl

/-- C5 counterexample: for the interior `"a```b```c"`, which itself contains
fences, stripping the bare text gives `"b"` while stripping the wrapped text
gives `"a"`, so the wrapped and unwrapped results differ. -/
theorem c5_counterexample :
    stripJsonBlock "```json\na```b```c\n```" ≠ stripJsonBlock "a```b```c" := by
  decide

/-- C7 counterexample: in `"a�1�2"` the second marker sits between
the word characters `1` and `2`, yet the first rule consumes `1` as the
closing word character of the first match, so the second marker is handled by
the digit rule and becomes currency, not an em dash. -/
theorem c7_counterexample :
    normalize_for_llm "a\uFFFD1\uFFFD2" = "a \u2014 1 EUR 2" ∧
    ("a \u2014 1 EUR 2" : String) ≠ "a \u2014 1 \u2014 2" := by
  exact ⟨by decide, by decide⟩

end AIEx
